import Mathlib

/-!
Shallow embedding of the image-analysis pipeline of
`procesador-imagenes-multiespectrales` (`src/app.py`).

The pipeline stages embedded here, with the source lines they come from:

* Band Selector: the dimensionality branch of `process_image`
  (`src/app.py` lines 64-70), including numpy index semantics for
  `image[:, :, band-1]`.
* Normalizer: the dtype branch of `process_image` (lines 72-74), i.e.
  `cv2.normalize(img_band, None, 0, 255, cv2.NORM_MINMAX).astype(np.uint8)`,
  embedded with exact rational arithmetic.
* Otsu Thresholder: `skimage.filters.threshold_otsu` as called on line 79,
  embedded for integer (uint8) images: per-value histogram between the image
  minimum and maximum, cumulative weights/means, between-class variance and
  first-index argmax, with the constant-image early return.
* Binarizer: `(img_band > thresh).astype(np.uint8) * 255` (line 80).
* Histogram Builder: `ax.hist(image.flatten(), bins=bins_count)` (line 87),
  i.e. `np.histogram` with data-dependent range, half-open bins and a closed
  last bin.
* Statistics Engine: `calculate_statistics` (lines 103-114) via the numpy
  reductions it calls.

Pixels are rationals (exact arithmetic standing for the ideal value of the
floating-point computation); normalized bands are lists of naturals in
`[0, 255]`.  Bands are lists of rows, images are 2-D or 3-D nested lists.
-/

namespace MultiSpec

/-- Fold of `min` over a list starting from `d`; the reduction performed by
`np.min` on the array `d :: l`. -/
def listMin {α : Type} [LinearOrder α] (d : α) (l : List α) : α :=
  l.foldl min d

/-- Fold of `max` over a list starting from `d`; the reduction performed by
`np.max` on the array `d :: l`. -/
def listMax {α : Type} [LinearOrder α] (d : α) (l : List α) : α :=
  l.foldl max d

/-- Minimum of an array, `np.min`; numpy rejects the empty array, which is
mapped to the junk value `0` (never used under the nonemptiness hypotheses). -/
def arrMin {α : Type} [LinearOrder α] [Zero α] : List α → α
  | [] => 0
  | x :: r => listMin x r

/-- Maximum of an array, `np.max`; `0` on the (rejected) empty array. -/
def arrMax {α : Type} [LinearOrder α] [Zero α] : List α → α
  | [] => 0
  | x :: r => listMax x r

theorem listMin_le_init {α : Type} [LinearOrder α] (d : α) (l : List α) :
    listMin d l ≤ d := by
  induction l generalizing d with
  | nil => simp [listMin]
  | cons x r ih =>
    calc listMin d (x :: r) = listMin (min d x) r := rfl
      _ ≤ min d x := ih _
      _ ≤ d := min_le_left _ _

theorem listMin_le_mem {α : Type} [LinearOrder α] (d : α) (l : List α)
    (y : α) (hy : y ∈ l) : listMin d l ≤ y := by
  induction l generalizing d with
  | nil => cases hy
  | cons x r ih =>
    rcases List.mem_cons.mp hy with h | h
    · calc listMin d (x :: r) = listMin (min d x) r := rfl
        _ ≤ min d x := listMin_le_init _ _
        _ ≤ x := min_le_right _ _
        _ = y := h.symm
    · exact ih (min d x) h

theorem listMin_eq_init_or_mem {α : Type} [LinearOrder α] (d : α) (l : List α) :
    listMin d l = d ∨ listMin d l ∈ l := by
  induction l generalizing d with
  | nil => exact Or.inl rfl
  | cons x r ih =>
    have hstep : listMin d (x :: r) = listMin (min d x) r := rfl
    rcases ih (min d x) with h | h
    · rcases min_choice d x with hm | hm
      · exact Or.inl (by rw [hstep, h, hm])
      · exact Or.inr (by rw [hstep, h, hm]; exact List.mem_cons_self _ _)
    · exact Or.inr (by rw [hstep]; exact List.mem_cons_of_mem _ h)

theorem init_le_listMax {α : Type} [LinearOrder α] (d : α) (l : List α) :
    d ≤ listMax d l := by
  induction l generalizing d with
  | nil => simp [listMax]
  | cons x r ih =>
    calc d ≤ max d x := le_max_left _ _
      _ ≤ listMax (max d x) r := ih _
      _ = listMax d (x :: r) := rfl

theorem mem_le_listMax {α : Type} [LinearOrder α] (d : α) (l : List α)
    (y : α) (hy : y ∈ l) : y ≤ listMax d l := by
  induction l generalizing d with
  | nil => cases hy
  | cons x r ih =>
    rcases List.mem_cons.mp hy with h | h
    · calc y = x := h
        _ ≤ max d x := le_max_right _ _
        _ ≤ listMax (max d x) r := init_le_listMax _ _
        _ = listMax d (x :: r) := rfl
    · exact ih (max d x) h

theorem listMax_eq_init_or_mem {α : Type} [LinearOrder α] (d : α) (l : List α) :
    listMax d l = d ∨ listMax d l ∈ l := by
  induction l generalizing d with
  | nil => exact Or.inl rfl
  | cons x r ih =>
    have hstep : listMax d (x :: r) = listMax (max d x) r := rfl
    rcases ih (max d x) with h | h
    · rcases max_choice d x with hm | hm
      · exact Or.inl (by rw [hstep, h, hm])
      · exact Or.inr (by rw [hstep, h, hm]; exact List.mem_cons_self _ _)
    · exact Or.inr (by rw [hstep]; exact List.mem_cons_of_mem _ h)

theorem arrMin_le {α : Type} [LinearOrder α] [Zero α] (l : List α)
    (x : α) (hx : x ∈ l) : arrMin l ≤ x := by
  cases l with
  | nil => cases hx
  | cons y r =>
    rcases List.mem_cons.mp hx with h | h
    · exact h ▸ listMin_le_init _ _
    · exact listMin_le_mem _ _ _ h

theorem le_arrMax {α : Type} [LinearOrder α] [Zero α] (l : List α)
    (x : α) (hx : x ∈ l) : x ≤ arrMax l := by
  cases l with
  | nil => cases hx
  | cons y r =>
    rcases List.mem_cons.mp hx with h | h
    · exact h ▸ init_le_listMax _ _
    · exact mem_le_listMax _ _ _ h

theorem arrMin_mem {α : Type} [LinearOrder α] [Zero α] (l : List α)
    (h : l ≠ []) : arrMin l ∈ l := by
  cases l with
  | nil => exact absurd rfl h
  | cons y r =>
    rcases listMin_eq_init_or_mem y r with hm | hm
    · rw [arrMin, hm]; exact List.mem_cons_self _ _
    · exact List.mem_cons_of_mem _ (by rw [arrMin]; exact hm)

theorem arrMax_mem {α : Type} [LinearOrder α] [Zero α] (l : List α)
    (h : l ≠ []) : arrMax l ∈ l := by
  cases l with
  | nil => exact absurd rfl h
  | cons y r =>
    rcases listMax_eq_init_or_mem y r with hm | hm
    · rw [arrMax, hm]; exact List.mem_cons_self _ _
    · exact List.mem_cons_of_mem _ (by rw [arrMax]; exact hm)

/-- Sum `f 0 + f 1 + ... + f (n-1)`; the value of the `n`-th entry of
`np.cumsum` applied to the sequence `f`. -/
def rsum (f : ℕ → ℚ) : ℕ → ℚ
  | 0 => 0
  | n + 1 => rsum f n + f n

theorem rsum_shift (f : ℕ → ℚ) (a b : ℕ) :
    rsum f (a + b) = rsum f a + rsum (fun t => f (a + t)) b := by
  induction b with
  | zero => simp [rsum]
  | succ b ih =>
    have hab : a + (b + 1) = (a + b) + 1 := by omega
    rw [hab]
    show rsum f (a + b) + f (a + b) = _
    rw [ih]
    show rsum f a + rsum (fun t => f (a + t)) b + f (a + b) =
      rsum f a + (rsum (fun t => f (a + t)) b + f (a + b))
    ring

/-- Splitting a `countP` into two disjoint exhaustive parts, justified by a
pointwise indicator identity on the members of the list. -/
theorem countP_split {α : Type} (l : List α) (p q r : α → Bool)
    (h : ∀ x ∈ l, (if p x then (1 : ℕ) else 0) =
      (if q x then 1 else 0) + (if r x then 1 else 0)) :
    l.countP p = l.countP q + l.countP r := by
  induction l with
  | nil => simp
  | cons x l ih =>
    have hx := h x (List.mem_cons_self _ _)
    have hl := ih (fun y hy => h y (List.mem_cons_of_mem _ hy))
    simp only [List.countP_cons]
    omega

/-- A `countP` is unchanged when the predicate is replaced by a pointwise
equal one on the members of the list. -/
theorem countP_congr_mem {α : Type} (l : List α) (p q : α → Bool)
    (h : ∀ x ∈ l, p x = q x) : l.countP p = l.countP q := by
  induction l with
  | nil => simp
  | cons x l ih =>
    have hx := h x (List.mem_cons_self _ _)
    have hl := ih (fun y hy => h y (List.mem_cons_of_mem _ hy))
    simp only [List.countP_cons, hx, hl]

/-- Splitting the sum of a filtered list of naturals into two disjoint
exhaustive parts, justified pointwise on the members of the list. -/
theorem sum_filter_split (l : List ℕ) (p q r : ℕ → Bool)
    (h : ∀ x ∈ l, (if p x then x else 0) =
      (if q x then x else 0) + (if r x then x else 0)) :
    (l.filter p).sum = (l.filter q).sum + (l.filter r).sum := by
  induction l with
  | nil => simp
  | cons x l ih =>
    have hx := h x (List.mem_cons_self _ _)
    have hl := ih (fun y hy => h y (List.mem_cons_of_mem _ hy))
    by_cases hp : p x <;> by_cases hq : q x <;> by_cases hr : r x <;>
      simp only [hp, hq, hr, if_true, if_false, List.filter_cons,
        List.sum_cons, if_pos, if_neg, Bool.false_eq_true,
        not_false_eq_true] at hx ⊢ <;> omega

/-- The sum of a filtered list is unchanged when the predicate is replaced by
a pointwise equal one on the members of the list. -/
theorem sum_filter_congr_mem (l : List ℕ) (p q : ℕ → Bool)
    (h : ∀ x ∈ l, p x = q x) : (l.filter p).sum = (l.filter q).sum := by
  induction l with
  | nil => simp
  | cons x l ih =>
    have hx := h x (List.mem_cons_self _ _)
    have hl := ih (fun y hy => h y (List.mem_cons_of_mem _ hy))
    by_cases hq : q x <;>
      simp only [List.filter_cons, hx, hl, hq, if_true, if_false,
        List.sum_cons, Bool.false_eq_true]

/-- Number of pixels equal to `v`: one entry of the per-value `np.bincount`
histogram that `skimage.exposure.histogram` builds for integer images. -/
def countEq (xs : List ℕ) (v : ℕ) : ℕ :=
  xs.countP (fun x => decide (x = v))

/-- Number of pixels with value at most `t`: the size of the below-or-equal
Otsu class. -/
def nLe (xs : List ℕ) (t : ℕ) : ℕ :=
  xs.countP (fun x => decide (x ≤ t))

/-- Number of pixels with value strictly above `t`: the size of the above
Otsu class. -/
def nGt (xs : List ℕ) (t : ℕ) : ℕ :=
  xs.countP (fun x => decide (t < x))

/-- Total intensity of the below-or-equal Otsu class. -/
def sumLe (xs : List ℕ) (t : ℕ) : ℕ :=
  (xs.filter (fun x => decide (x ≤ t))).sum

/-- Total intensity of the above Otsu class. -/
def sumGt (xs : List ℕ) (t : ℕ) : ℕ :=
  (xs.filter (fun x => decide (t < x))).sum

theorem nLe_succ (xs : List ℕ) (v : ℕ) :
    nLe xs (v + 1) = nLe xs v + countEq xs (v + 1) := by
  refine countP_split xs _ _ _ (fun x _ => ?_)
  by_cases h1 : x ≤ v + 1 <;> by_cases h2 : x ≤ v <;>
    by_cases h3 : x = v + 1 <;> simp [h1, h2, h3] <;> omega

theorem nLe_base (xs : List ℕ) (m : ℕ) (hm : ∀ x ∈ xs, m ≤ x) :
    nLe xs m = countEq xs m := by
  refine countP_congr_mem xs _ _ (fun x hx => ?_)
  have := hm x hx
  simp only [decide_eq_decide]
  omega

theorem filter_eq_sum (xs : List ℕ) (v : ℕ) :
    (xs.filter (fun x => decide (x = v))).sum = v * countEq xs v := by
  induction xs with
  | nil => simp [countEq]
  | cons x l ih =>
    by_cases h : x = v
    · have hf : ((x :: l).filter (fun x => decide (x = v))).sum =
          v + (l.filter (fun x => decide (x = v))).sum := by
        simp [List.filter_cons, h]
      have hc : countEq (x :: l) v = countEq l v + 1 := by
        simp [countEq, List.countP_cons, h]
      rw [hf, ih, hc, Nat.mul_succ]
      ring
    · have hf : ((x :: l).filter (fun x => decide (x = v))).sum =
          (l.filter (fun x => decide (x = v))).sum := by
        simp [List.filter_cons, h]
      have hc : countEq (x :: l) v = countEq l v := by
        simp [countEq, List.countP_cons, h]
      rw [hf, ih, hc]

theorem sumLe_succ (xs : List ℕ) (v : ℕ) :
    sumLe xs (v + 1) = sumLe xs v + (v + 1) * countEq xs (v + 1) := by
  have hsplit : sumLe xs (v + 1) = sumLe xs v +
      (xs.filter (fun x => decide (x = v + 1))).sum := by
    refine sum_filter_split xs _ _ _ (fun x _ => ?_)
    by_cases h1 : x ≤ v + 1 <;> by_cases h2 : x ≤ v <;>
      by_cases h3 : x = v + 1 <;> simp [h1, h2, h3] <;> omega
  rw [hsplit, filter_eq_sum]

theorem sumLe_base (xs : List ℕ) (m : ℕ) (hm : ∀ x ∈ xs, m ≤ x) :
    sumLe xs m = m * countEq xs m := by
  have hcongr : sumLe xs m = (xs.filter (fun x => decide (x = m))).sum := by
    refine sum_filter_congr_mem xs _ _ (fun x hx => ?_)
    have := hm x hx
    simp only [decide_eq_decide]
    omega
  rw [hcongr, filter_eq_sum]

theorem nLe_add_nGt (xs : List ℕ) (t : ℕ) :
    nLe xs t + nGt xs t = xs.length := by
  have := countP_split xs (fun _ => true) (fun x => decide (x ≤ t))
    (fun x => decide (t < x)) (fun x _ => by
      by_cases h1 : x ≤ t
      · have h2 : ¬ t < x := by omega
        simp [h1, h2]
      · have h2 : t < x := by omega
        simp [h1, h2])
  rw [List.countP_true] at this
  exact this.symm

theorem sumLe_add_sumGt (xs : List ℕ) (t : ℕ) :
    sumLe xs t + sumGt xs t = xs.sum := by
  have := sum_filter_split xs (fun _ => true) (fun x => decide (x ≤ t))
    (fun x => decide (t < x)) (fun x _ => by
      by_cases h1 : x ≤ t
      · have h2 : ¬ t < x := by omega
        simp [h1, h2]
      · have h2 : t < x := by omega
        simp [h1, h2])
  rw [List.filter_true] at this
  exact this.symm

theorem nLe_eq_length (xs : List ℕ) (t : ℕ) (h : ∀ x ∈ xs, x ≤ t) :
    nLe xs t = xs.length := by
  refine List.countP_eq_length.mpr (fun x hx => ?_)
  simpa using h x hx

theorem sumLe_eq_sum (xs : List ℕ) (t : ℕ) (h : ∀ x ∈ xs, x ≤ t) :
    sumLe xs t = xs.sum := by
  unfold sumLe
  rw [List.filter_eq_self.mpr (fun x hx => by simpa using h x hx)]

theorem nLe_eq_zero (xs : List ℕ) (t : ℕ) (h : ∀ x ∈ xs, t < x) :
    nLe xs t = 0 := by
  refine List.countP_eq_zero.mpr (fun x hx => ?_)
  simpa using Nat.not_le.mpr (h x hx)

theorem nGt_eq_zero (xs : List ℕ) (t : ℕ) (h : ∀ x ∈ xs, x ≤ t) :
    nGt xs t = 0 := by
  refine List.countP_eq_zero.mpr (fun x hx => ?_)
  simpa using Nat.not_lt.mpr (h x hx)

theorem sum_le_mul_length (l : List ℕ) (t : ℕ) (h : ∀ x ∈ l, x ≤ t) :
    l.sum ≤ t * l.length := by
  induction l with
  | nil => simp
  | cons x l ih =>
    have hx := h x (List.mem_cons_self _ _)
    have hl := ih (fun y hy => h y (List.mem_cons_of_mem _ hy))
    simp only [List.sum_cons, List.length_cons, Nat.mul_succ]
    omega

theorem mul_length_le_sum (l : List ℕ) (b : ℕ) (h : ∀ x ∈ l, b ≤ x) :
    b * l.length ≤ l.sum := by
  induction l with
  | nil => simp
  | cons x l ih =>
    have hx := h x (List.mem_cons_self _ _)
    have hl := ih (fun y hy => h y (List.mem_cons_of_mem _ hy))
    simp only [List.sum_cons, List.length_cons, Nat.mul_succ]
    omega

theorem sumLe_le (xs : List ℕ) (t : ℕ) : sumLe xs t ≤ t * nLe xs t := by
  have hlen : nLe xs t = (xs.filter (fun x => decide (x ≤ t))).length := by
    unfold nLe
    exact List.countP_eq_length_filter _ _
  have := sum_le_mul_length (xs.filter (fun x => decide (x ≤ t))) t
    (fun x hx => by simpa using (List.mem_filter.mp hx).2)
  rw [hlen]
  exact this

theorem sumGt_ge (xs : List ℕ) (t : ℕ) : (t + 1) * nGt xs t ≤ sumGt xs t := by
  have hlen : nGt xs t = (xs.filter (fun x => decide (t < x))).length := by
    unfold nGt
    exact List.countP_eq_length_filter _ _
  have := mul_length_le_sum (xs.filter (fun x => decide (t < x))) (t + 1)
    (fun x hx => by
      have hm := (List.mem_filter.mp hx).2
      simp only [decide_eq_true_eq] at hm
      omega)
  rw [hlen]
  exact this

/-- Number of histogram bins used inside `threshold_otsu` for an integer
image: one bin per intensity value from the minimum to the maximum
(`skimage.exposure.histogram` via `np.bincount`). -/
def otsuL (xs : List ℕ) : ℕ :=
  arrMax xs - arrMin xs + 1

/-- The `j`-th entry of the `threshold_otsu` histogram `counts`: the number
of pixels at intensity `min + j`. -/
def otsuCounts (xs : List ℕ) (j : ℕ) : ℚ :=
  (countEq xs (arrMin xs + j) : ℚ)

/-- `weight1[i] = np.cumsum(counts)[i]` inside `threshold_otsu`. -/
def weight1 (xs : List ℕ) (i : ℕ) : ℚ :=
  rsum (otsuCounts xs) (i + 1)

/-- `weight2[j] = np.cumsum(counts[::-1])[::-1][j]` inside `threshold_otsu`,
i.e. the sum of the histogram entries from bin `j` to the last bin. -/
def weight2 (xs : List ℕ) (j : ℕ) : ℚ :=
  rsum (fun t => otsuCounts xs (j + t)) (otsuL xs - j)

/-- `np.cumsum(counts * bin_centers)[i]` inside `threshold_otsu`. -/
def csum1 (xs : List ℕ) (i : ℕ) : ℚ :=
  rsum (fun j => otsuCounts xs j * (arrMin xs + j : ℕ)) (i + 1)

/-- The reversed cumulative sum of `counts * bin_centers` inside
`threshold_otsu`: the weighted intensity mass from bin `j` upward. -/
def csum2 (xs : List ℕ) (j : ℕ) : ℚ :=
  rsum (fun t => otsuCounts xs (j + t) * (arrMin xs + (j + t) : ℕ)) (otsuL xs - j)

/-- `mean1[i]` inside `threshold_otsu`: mean of the below-or-equal class. -/
def mean1 (xs : List ℕ) (i : ℕ) : ℚ :=
  csum1 xs i / weight1 xs i

/-- `mean2[j]` inside `threshold_otsu`: mean of the class of pixels at or
above bin `j`. -/
def mean2 (xs : List ℕ) (j : ℕ) : ℚ :=
  csum2 xs j / weight2 xs j

/-- `variance12[i] = weight1[i] * weight2[i+1] * (mean1[i] - mean2[i+1])**2`
inside `threshold_otsu`: the (count-scaled) between-class variance of the
split at bin `i`. -/
def variance12 (xs : List ℕ) (i : ℕ) : ℚ :=
  weight1 xs i * weight2 xs (i + 1) * (mean1 xs i - mean2 xs (i + 1)) ^ 2

/-- First-occurrence argmax of `f` on `{0, ..., n}` paired with its value:
the semantics of `np.argmax`, which scans left to right and keeps the first
maximal entry. -/
def argmaxAcc (f : ℕ → ℚ) : ℕ → ℕ × ℚ
  | 0 => (0, f 0)
  | n + 1 =>
    match argmaxAcc f n with
    | (b, fb) => if fb < f (n + 1) then (n + 1, f (n + 1)) else (b, fb)

/-- The constant-image test at the top of `skimage.filters.threshold_otsu`:
`np.all(image == image.reshape(-1)[0])` (vacuously true on the empty image,
which numpy rejects before this point). -/
def isConstant (xs : List ℕ) : Bool :=
  match xs with
  | [] => true
  | x :: r => (x :: r).all (fun y => decide (y = x))

/-- Embeds `skimage.filters.threshold_otsu` for an integer image given as
the flattened pixel list `xs`.  A constant image returns its first pixel
value; otherwise the histogram has one bin per intensity value from the
minimum `m` to the maximum `M`, `variance12` is maximized over the
`L - 1` candidate splits (`L = M - m + 1` bins) by a first-occurrence
argmax, and the threshold is the corresponding bin center `m + idx`.
The empty image (rejected by numpy) is mapped to the junk value `0`. -/
def threshold_otsu (xs : List ℕ) : ℕ :=
  match xs with
  | [] => 0
  | x :: r =>
    if (x :: r).all (fun y => decide (y = x)) then x
    else arrMin (x :: r) + (argmaxAcc (variance12 (x :: r)) (otsuL (x :: r) - 2)).1

/-- Embeds `(img_band > thresh).astype(np.uint8) * 255` from
`process_image` (`src/app.py` line 80): elementwise strict comparison with
the threshold, cast to `{0, 1}` and scaled by 255. -/
def binarize (nb : List (List ℕ)) (t : ℕ) : List (List ℕ) :=
  nb.map (fun row => row.map (fun p => (if t < p then 1 else 0) * 255))

/-- Between-class variance of the split of `xs` at threshold `t`, written
from the specification: class weights `w0, w1` are the population fractions
of the classes `{p : p ≤ t}` and `{p : p > t}`, `μ0, μ1` their means, and
`σ²_b(t) = w0 * w1 * (μ0 - μ1)^2`.  Division by zero (an empty class or an
empty image) follows the Lean convention `a / 0 = 0`, making `σ²_b` zero
whenever a class is empty. -/
def sigmaB (xs : List ℕ) (t : ℕ) : ℚ :=
  ((nLe xs t : ℚ) / (xs.length : ℚ)) * ((nGt xs t : ℚ) / (xs.length : ℚ)) *
    ((sumLe xs t : ℚ) / (nLe xs t : ℚ) - (sumGt xs t : ℚ) / (nGt xs t : ℚ)) ^ 2

theorem argmaxAcc_snd (f : ℕ → ℚ) (n : ℕ) :
    (argmaxAcc f n).2 = f (argmaxAcc f n).1 := by
  induction n with
  | zero => rfl
  | succ n ih =>
    rcases hab : argmaxAcc f n with ⟨b, fb⟩
    rw [hab] at ih
    simp only [argmaxAcc, hab]
    by_cases hlt : fb < f (n + 1)
    · simp [hlt]
    · simpa [hlt] using ih

theorem argmaxAcc_fst_le (f : ℕ → ℚ) (n : ℕ) : (argmaxAcc f n).1 ≤ n := by
  induction n with
  | zero => simp [argmaxAcc]
  | succ n ih =>
    rcases hab : argmaxAcc f n with ⟨b, fb⟩
    rw [hab] at ih
    simp only [argmaxAcc, hab]
    by_cases hlt : fb < f (n + 1) <;> simp [hlt] <;> omega

theorem le_argmaxAcc (f : ℕ → ℚ) (n i : ℕ) (hi : i ≤ n) :
    f i ≤ f (argmaxAcc f n).1 := by
  induction n with
  | zero =>
    have hi0 : i = 0 := by omega
    subst hi0
    simp [argmaxAcc]
  | succ n ih =>
    rcases hab : argmaxAcc f n with ⟨b, fb⟩
    have hfb : fb = f b := by
      have hs := argmaxAcc_snd f n
      rw [hab] at hs
      exact hs
    simp only [argmaxAcc, hab]
    by_cases hlt : fb < f (n + 1)
    · simp only [hlt, if_true]
      rcases Nat.lt_or_ge i (n + 1) with h | h
      · have hle := ih (by omega)
        rw [hab] at hle
        calc f i ≤ f b := hle
          _ = fb := hfb.symm
          _ ≤ f (n + 1) := le_of_lt hlt
      · have hin : i = n + 1 := by omega
        subst hin
        exact le_refl _
    · simp only [hlt, if_false]
      rcases Nat.lt_or_ge i (n + 1) with h | h
      · have hle := ih (by omega)
        rw [hab] at hle
        exact hle
      · have hin : i = n + 1 := by omega
        subst hin
        have hge : f (n + 1) ≤ fb := le_of_not_lt hlt
        rw [hfb] at hge
        exact hge

theorem argmaxAcc_min (f : ℕ → ℚ) (n i : ℕ) (hi : i ≤ n)
    (heq : f i = f (argmaxAcc f n).1) : (argmaxAcc f n).1 ≤ i := by
  induction n with
  | zero => exact Nat.zero_le _
  | succ n ih =>
    rcases hab : argmaxAcc f n with ⟨b, fb⟩
    have hfb : fb = f b := by
      have hs := argmaxAcc_snd f n
      rw [hab] at hs
      exact hs
    rw [hab] at ih
    simp only [argmaxAcc, hab] at heq ⊢
    by_cases hlt : fb < f (n + 1)
    · simp only [hlt, if_true] at heq ⊢
      rcases Nat.lt_or_ge i (n + 1) with h | h
      · exfalso
        have hle := le_argmaxAcc f n i (by omega)
        rw [hab] at hle
        rw [heq] at hle
        rw [hfb] at hlt
        exact absurd (lt_of_le_of_lt hle hlt) (lt_irrefl _)
      · omega
    · simp only [hlt, if_false] at heq ⊢
      rcases Nat.lt_or_ge i (n + 1) with h | h
      · exact ih (by omega) heq
      · have hble : b ≤ n := by
          have := argmaxAcc_fst_le f n
          rw [hab] at this
          exact this
        omega

theorem weight1_eq (xs : List ℕ) (i : ℕ) :
    weight1 xs i = (nLe xs (arrMin xs + i) : ℚ) := by
  induction i with
  | zero =>
    show rsum (otsuCounts xs) 0 + otsuCounts xs 0 = _
    rw [nLe_base xs (arrMin xs + 0) (fun x hx => by
      have := arrMin_le xs x hx
      omega)]
    simp [rsum, otsuCounts]
  | succ i ih =>
    show rsum (otsuCounts xs) (i + 1) + otsuCounts xs (i + 1) = _
    have hstep : nLe xs (arrMin xs + (i + 1)) =
        nLe xs (arrMin xs + i) + countEq xs (arrMin xs + i + 1) := by
      have := nLe_succ xs (arrMin xs + i)
      convert this using 2 <;> omega
    rw [hstep]
    push_cast
    rw [show rsum (otsuCounts xs) (i + 1) = weight1 xs i from rfl, ih]
    simp only [otsuCounts]
    push_cast
    ring_nf

theorem csum1_eq (xs : List ℕ) (i : ℕ) :
    csum1 xs i = (sumLe xs (arrMin xs + i) : ℚ) := by
  induction i with
  | zero =>
    show rsum _ 0 + otsuCounts xs 0 * ((arrMin xs + 0 : ℕ) : ℚ) = _
    rw [sumLe_base xs (arrMin xs + 0) (fun x hx => by
      have := arrMin_le xs x hx
      omega)]
    simp [rsum, otsuCounts]
    push_cast
    ring
  | succ i ih =>
    show rsum _ (i + 1) + otsuCounts xs (i + 1) * ((arrMin xs + (i + 1) : ℕ) : ℚ) = _
    have hstep : sumLe xs (arrMin xs + (i + 1)) =
        sumLe xs (arrMin xs + i) + (arrMin xs + i + 1) * countEq xs (arrMin xs + i + 1) := by
      have := sumLe_succ xs (arrMin xs + i)
      convert this using 2 <;> omega
    rw [show rsum (fun j => otsuCounts xs j * ((arrMin xs + j : ℕ) : ℚ)) (i + 1) =
      csum1 xs i from rfl, ih, hstep]
    simp only [otsuCounts]
    push_cast
    ring_nf

theorem arrMin_le_arrMax {α : Type} [LinearOrder α] [Zero α] (xs : List α)
    (hne : xs ≠ []) : arrMin xs ≤ arrMax xs := by
  cases xs with
  | nil => exact absurd rfl hne
  | cons x r =>
    exact le_trans (arrMin_le _ x (List.mem_cons_self _ _))
      (le_arrMax _ x (List.mem_cons_self _ _))

theorem rsum_counts_total (xs : List ℕ) (hne : xs ≠ []) :
    rsum (otsuCounts xs) (otsuL xs) = (xs.length : ℚ) := by
  have hL : otsuL xs = (otsuL xs - 1) + 1 := by
    unfold otsuL
    omega
  have hw := weight1_eq xs (otsuL xs - 1)
  have hM : arrMin xs + (otsuL xs - 1) = arrMax xs := by
    have := arrMin_le_arrMax xs hne
    unfold otsuL
    omega
  rw [hM] at hw
  have hlen : nLe xs (arrMax xs) = xs.length :=
    nLe_eq_length xs (arrMax xs) (fun x hx => le_arrMax xs x hx)
  rw [hL]
  rw [show rsum (otsuCounts xs) ((otsuL xs - 1) + 1) = weight1 xs (otsuL xs - 1)
    from rfl, hw, hlen]

theorem rsum_wcounts_total (xs : List ℕ) (hne : xs ≠ []) :
    rsum (fun j => otsuCounts xs j * ((arrMin xs + j : ℕ) : ℚ)) (otsuL xs) =
      (xs.sum : ℚ) := by
  have hL : otsuL xs = (otsuL xs - 1) + 1 := by
    unfold otsuL
    omega
  have hw := csum1_eq xs (otsuL xs - 1)
  have hM : arrMin xs + (otsuL xs - 1) = arrMax xs := by
    have := arrMin_le_arrMax xs hne
    unfold otsuL
    omega
  rw [hM] at hw
  have hsum : sumLe xs (arrMax xs) = xs.sum :=
    sumLe_eq_sum xs (arrMax xs) (fun x hx => le_arrMax xs x hx)
  rw [hL]
  rw [show rsum (fun j => otsuCounts xs j * ((arrMin xs + j : ℕ) : ℚ))
    ((otsuL xs - 1) + 1) = csum1 xs (otsuL xs - 1) from rfl, hw, hsum]

theorem weight2_eq (xs : List ℕ) (hne : xs ≠ []) (i : ℕ)
    (hi : i + 1 ≤ otsuL xs) :
    weight2 xs (i + 1) = (nGt xs (arrMin xs + i) : ℚ) := by
  have hsplit := rsum_shift (otsuCounts xs) (i + 1) (otsuL xs - (i + 1))
  rw [show (i + 1) + (otsuL xs - (i + 1)) = otsuL xs from by omega] at hsplit
  rw [rsum_counts_total xs hne] at hsplit
  have hw1 : rsum (otsuCounts xs) (i + 1) = (nLe xs (arrMin xs + i) : ℚ) :=
    weight1_eq xs i
  rw [hw1] at hsplit
  have hcomp := nLe_add_nGt xs (arrMin xs + i)
  have hcompQ : (nLe xs (arrMin xs + i) : ℚ) + (nGt xs (arrMin xs + i) : ℚ) =
      (xs.length : ℚ) := by
    exact_mod_cast hcomp
  unfold weight2
  linarith

theorem csum2_eq (xs : List ℕ) (hne : xs ≠ []) (i : ℕ)
    (hi : i + 1 ≤ otsuL xs) :
    csum2 xs (i + 1) = (sumGt xs (arrMin xs + i) : ℚ) := by
  have hsplit := rsum_shift (fun j => otsuCounts xs j * ((arrMin xs + j : ℕ) : ℚ))
    (i + 1) (otsuL xs - (i + 1))
  rw [show (i + 1) + (otsuL xs - (i + 1)) = otsuL xs from by omega] at hsplit
  rw [rsum_wcounts_total xs hne] at hsplit
  have hc1 : rsum (fun j => otsuCounts xs j * ((arrMin xs + j : ℕ) : ℚ)) (i + 1) =
      (sumLe xs (arrMin xs + i) : ℚ) := csum1_eq xs i
  rw [hc1] at hsplit
  have hcomp := sumLe_add_sumGt xs (arrMin xs + i)
  have hcompQ : (sumLe xs (arrMin xs + i) : ℚ) + (sumGt xs (arrMin xs + i) : ℚ) =
      (xs.sum : ℚ) := by
    exact_mod_cast hcomp
  unfold csum2
  linarith

theorem variance12_eq_sigmaB (xs : List ℕ) (hne : xs ≠ []) (i : ℕ)
    (hi : i + 1 ≤ otsuL xs) :
    variance12 xs i = ((xs.length : ℚ)) ^ 2 * sigmaB xs (arrMin xs + i) := by
  have hN : ((xs.length : ℚ)) ≠ 0 := by
    have : xs.length ≠ 0 := fun h => hne (List.length_eq_zero.mp h)
    exact_mod_cast this
  unfold variance12 mean1 mean2 sigmaB
  rw [weight1_eq xs i, weight2_eq xs hne i hi, csum1_eq xs i, csum2_eq xs hne i hi]
  field_simp
  ring

theorem sigmaB_eq_zero_below (xs : List ℕ) (t : ℕ) (ht : t < arrMin xs) :
    sigmaB xs t = 0 := by
  have h0 : nLe xs t = 0 :=
    nLe_eq_zero xs t (fun x hx => lt_of_lt_of_le ht (arrMin_le xs x hx))
  unfold sigmaB
  rw [h0]
  simp

theorem sigmaB_eq_zero_above (xs : List ℕ) (t : ℕ) (ht : arrMax xs ≤ t) :
    sigmaB xs t = 0 := by
  have h0 : nGt xs t = 0 :=
    nGt_eq_zero xs t (fun x hx => le_trans (le_arrMax xs x hx) ht)
  unfold sigmaB
  rw [h0]
  simp

theorem sigmaB_pos (xs : List ℕ) (hne : xs ≠ []) (t : ℕ)
    (h1 : arrMin xs ≤ t) (h2 : t < arrMax xs) : 0 < sigmaB xs t := by
  have hn0 : 0 < nLe xs t := by
    refine List.countP_pos.mpr ⟨arrMin xs, arrMin_mem xs hne, ?_⟩
    simpa using h1
  have hn1 : 0 < nGt xs t := by
    refine List.countP_pos.mpr ⟨arrMax xs, arrMax_mem xs hne, ?_⟩
    simpa using h2
  have hN : 0 < xs.length := List.length_pos.mpr hne
  have hn0Q : (0 : ℚ) < (nLe xs t : ℚ) := by exact_mod_cast hn0
  have hn1Q : (0 : ℚ) < (nGt xs t : ℚ) := by exact_mod_cast hn1
  have hNQ : (0 : ℚ) < (xs.length : ℚ) := by exact_mod_cast hN
  have hmu0 : (sumLe xs t : ℚ) / (nLe xs t : ℚ) ≤ (t : ℚ) := by
    rw [div_le_iff hn0Q]
    have := sumLe_le xs t
    have hcast : (sumLe xs t : ℚ) ≤ (t : ℚ) * (nLe xs t : ℚ) := by
      exact_mod_cast this
    linarith
  have hmu1 : (t : ℚ) + 1 ≤ (sumGt xs t : ℚ) / (nGt xs t : ℚ) := by
    rw [le_div_iff hn1Q]
    have := sumGt_ge xs t
    have hcast : ((t : ℚ) + 1) * (nGt xs t : ℚ) ≤ (sumGt xs t : ℚ) := by
      exact_mod_cast this
    linarith
  have hw0 : (0 : ℚ) < (nLe xs t : ℚ) / (xs.length : ℚ) := div_pos hn0Q hNQ
  have hw1 : (0 : ℚ) < (nGt xs t : ℚ) / (xs.length : ℚ) := div_pos hn1Q hNQ
  have hD : (sumLe xs t : ℚ) / (nLe xs t : ℚ) -
      (sumGt xs t : ℚ) / (nGt xs t : ℚ) ≤ -1 := by linarith
  have hD2 : (1 : ℚ) ≤ ((sumLe xs t : ℚ) / (nLe xs t : ℚ) -
      (sumGt xs t : ℚ) / (nGt xs t : ℚ)) ^ 2 := by nlinarith
  unfold sigmaB
  nlinarith [mul_pos hw0 hw1]

theorem threshold_otsu_constant (x : ℕ) (r : List ℕ)
    (hc : ∀ y ∈ x :: r, y = x) : threshold_otsu (x :: r) = x := by
  have hall : (x :: r).all (fun y => decide (y = x)) = true :=
    List.all_eq_true.mpr (fun y hy => by simpa using hc y hy)
  simp [threshold_otsu, hall]

theorem arrMin_lt_arrMax_of_not_constant (xs : List ℕ) (hne : xs ≠ [])
    (hc : isConstant xs = false) : arrMin xs < arrMax xs := by
  cases xs with
  | nil => exact absurd rfl hne
  | cons x r =>
    have hex : ∃ y ∈ x :: r, ¬ (y = x) := by
      by_contra hall
      push_neg at hall
      have : (x :: r).all (fun y => decide (y = x)) = true :=
        List.all_eq_true.mpr (fun y hy => by simpa using hall y hy)
      rw [show isConstant (x :: r) = (x :: r).all (fun y => decide (y = x))
        from rfl, this] at hc
      cases hc
    obtain ⟨y, hy, hyx⟩ := hex
    have h1 := arrMin_le (x :: r) x (List.mem_cons_self x r)
    have h2 := le_arrMax (x :: r) x (List.mem_cons_self x r)
    have h3 := arrMin_le (x :: r) y hy
    have h4 := le_arrMax (x :: r) y hy
    rcases Nat.lt_or_ge (arrMin (x :: r)) (arrMax (x :: r)) with h | h
    · exact h
    · exfalso
      apply hyx
      omega

theorem threshold_otsu_eq_argmax (x : ℕ) (r : List ℕ)
    (hc : isConstant (x :: r) = false) :
    threshold_otsu (x :: r) = arrMin (x :: r) +
      (argmaxAcc (variance12 (x :: r)) (otsuL (x :: r) - 2)).1 := by
  have hall : (x :: r).all (fun y => decide (y = x)) = false := hc
  simp [threshold_otsu, hall]

/-- The non-constant half of the `threshold_otsu` contract: the returned
threshold lies in `[min, max)` and is the least maximizer of the
between-class variance `sigmaB` over all candidate thresholds. -/
theorem threshold_otsu_maximizes (xs : List ℕ) (hne : xs ≠ [])
    (hc : isConstant xs = false) :
    arrMin xs ≤ threshold_otsu xs ∧ threshold_otsu xs < arrMax xs ∧
    (∀ s : ℕ, sigmaB xs s ≤ sigmaB xs (threshold_otsu xs)) ∧
    (∀ s : ℕ, sigmaB xs s = sigmaB xs (threshold_otsu xs) →
      threshold_otsu xs ≤ s) := by
  have hmm := arrMin_lt_arrMax_of_not_constant xs hne hc
  have hL2 : 2 ≤ otsuL xs := by
    unfold otsuL
    omega
  cases xs with
  | nil => exact absurd rfl hne
  | cons x r =>
    have hthr := threshold_otsu_eq_argmax x r hc
    have hidx : (argmaxAcc (variance12 (x :: r)) (otsuL (x :: r) - 2)).1 ≤
        otsuL (x :: r) - 2 := argmaxAcc_fst_le _ _
    have hLdef : otsuL (x :: r) = arrMax (x :: r) - arrMin (x :: r) + 1 := rfl
    have htlo : arrMin (x :: r) ≤ threshold_otsu (x :: r) := by
      rw [hthr]
      omega
    have hthi : threshold_otsu (x :: r) < arrMax (x :: r) := by
      rw [hthr]
      omega
    have hpos : 0 < sigmaB (x :: r) (threshold_otsu (x :: r)) :=
      sigmaB_pos (x :: r) hne _ htlo hthi
    have hN2 : (0 : ℚ) < ((x :: r).length : ℚ) ^ 2 := by
      have : (0 : ℚ) < ((x :: r).length : ℚ) := by
        exact_mod_cast List.length_pos.mpr hne
      positivity
    have hvar_thr : variance12 (x :: r)
          (argmaxAcc (variance12 (x :: r)) (otsuL (x :: r) - 2)).1 =
        ((x :: r).length : ℚ) ^ 2 * sigmaB (x :: r) (threshold_otsu (x :: r)) := by
      rw [hthr]
      exact variance12_eq_sigmaB (x :: r) hne _ (by omega)
    refine ⟨htlo, hthi, ?_, ?_⟩
    · intro s
      rcases Nat.lt_or_ge s (arrMin (x :: r)) with hs | hs
      · rw [sigmaB_eq_zero_below (x :: r) s hs]
        exact le_of_lt hpos
      rcases Nat.lt_or_ge s (arrMax (x :: r)) with hs2 | hs2
      · have hvs := variance12_eq_sigmaB (x :: r) hne (s - arrMin (x :: r))
          (by omega)
        rw [show arrMin (x :: r) + (s - arrMin (x :: r)) = s from by omega] at hvs
        have hcmp := le_argmaxAcc (variance12 (x :: r)) (otsuL (x :: r) - 2)
          (s - arrMin (x :: r)) (by omega)
        rw [hvs, hvar_thr] at hcmp
        exact le_of_mul_le_mul_left hcmp hN2
      · rw [sigmaB_eq_zero_above (x :: r) s hs2]
        exact le_of_lt hpos
    · intro s heq
      rcases Nat.lt_or_ge s (arrMin (x :: r)) with hs | hs
      · exfalso
        rw [sigmaB_eq_zero_below (x :: r) s hs] at heq
        rw [← heq] at hpos
        exact lt_irrefl _ hpos
      rcases Nat.lt_or_ge s (arrMax (x :: r)) with hs2 | hs2
      · have hvs := variance12_eq_sigmaB (x :: r) hne (s - arrMin (x :: r))
          (by omega)
        rw [show arrMin (x :: r) + (s - arrMin (x :: r)) = s from by omega] at hvs
        have hveq : variance12 (x :: r) (s - arrMin (x :: r)) =
            variance12 (x :: r)
              (argmaxAcc (variance12 (x :: r)) (otsuL (x :: r) - 2)).1 := by
          rw [hvs, hvar_thr, heq]
        have hmin := argmaxAcc_min (variance12 (x :: r)) (otsuL (x :: r) - 2)
          (s - arrMin (x :: r)) (by omega) hveq
        rw [hthr]
        omega
      · rw [hthr]
        omega

/-- Element type of a decoded raster array, as far as the pipeline branches
on it (`img_band.dtype != np.uint8` in `process_image`). -/
inductive DType
  | uint8
  | uint16
  | float64
deriving DecidableEq

/-- A decoded raster array: 2-D grayscale `(H, W)` or 3-D multiband
`(H, W, C)` with the channel axis last, as produced by `load_image`. -/
inductive RData
  | two (g : List (List ℚ))
  | three (m : List (List (List ℚ)))

/-- `image.shape[2]` of a 3-D array: the length of the innermost axis (all
pixel vectors have this length in a rectangular numpy array). -/
def nchannels (m : List (List (List ℚ))) : ℕ :=
  ((m.headD []).headD []).length

/-- `image[:, :, j]` for an in-range channel index `j`: dropping the channel
axis.  Out-of-range accesses into ragged (non-numpy) data default to 0 and
are excluded by the rectangularity hypotheses of the theorems. -/
def channelAt (m : List (List (List ℚ))) (j : ℕ) : List (List ℚ) :=
  m.map (fun row => row.map (fun px => px.getD j 0))

/-- numpy basic indexing of the channel axis by a possibly negative index:
`0 ≤ i < C` selects channel `i`, `-C ≤ i < 0` wraps to channel `C + i`, and
anything else raises `IndexError` (modelled as `none`). -/
def npChannel (m : List (List (List ℚ))) (i : ℤ) : Option (List (List ℚ)) :=
  if 0 ≤ i ∧ i < (nchannels m : ℤ) then some (channelAt m i.toNat)
  else if -(nchannels m : ℤ) ≤ i ∧ i < 0 then
    some (channelAt m (i + (nchannels m : ℤ)).toNat)
  else none

/-- Embeds the Band Selector of `process_image` (`src/app.py` lines 64-70):
a 2-D image is returned unchanged; a 3-D image yields `image[:, :, band-1]`
when `band <= image.shape[2]` and `image[:, :, 0]` otherwise. -/
def selectBand (img : RData) (band : ℤ) : Option (List (List ℚ)) :=
  match img with
  | .two g => some g
  | .three m =>
    if band ≤ (nchannels m : ℤ) then npChannel m (band - 1)
    else npChannel m 0

/-- `DBL_EPSILON = 2^(-52)`, the constant OpenCV compares the source range
against inside `cv2.normalize(..., NORM_MINMAX)`. -/
def dblEpsilon : ℚ := 1 / 2 ^ 52

/-- `cvRound`: round to the nearest integer with ties to even, the rounding
OpenCV applies when converting a scaled value to an integer type. -/
def cvRound (y : ℚ) : ℤ :=
  if y - ⌊y⌋ < 1 / 2 then ⌊y⌋
  else if 1 / 2 < y - ⌊y⌋ then ⌊y⌋ + 1
  else if ⌊y⌋ % 2 = 0 then ⌊y⌋ else ⌊y⌋ + 1

/-- C-style truncation toward zero: the conversion `numpy.astype` performs
from a floating value to an unsigned integer type (for values in range). -/
def truncQ (y : ℚ) : ℤ :=
  if 0 ≤ y then ⌊y⌋ else -⌊-y⌋

/-- Saturation to the `uint16` range, applied by OpenCV `convertTo` when
the source (hence destination) type of `cv2.normalize` is `uint16`. -/
def satU16 (z : ℤ) : ℤ :=
  max 0 (min z 65535)

/-- One pixel of `cv2.normalize(img, None, 0, 255, NORM_MINMAX).astype(np.uint8)`
for a non-`uint8` dtype: scale and shift, convert back to the source dtype
(round half to even and saturate for `uint16`; exact for `float64`), then
`astype(np.uint8)` (wrap modulo 256 from `uint16`; truncation toward zero
from `float64`).  The `uint8` case never reaches this function in
`process_image` and is the identity. -/
def normalizePixel (d : DType) (scale shift x : ℚ) : ℚ :=
  match d with
  | .uint8 => x
  | .uint16 => (((satU16 (cvRound (x * scale + shift))) % 256 : ℤ) : ℚ)
  | .float64 => ((truncQ (x * scale + shift) : ℤ) : ℚ)

/-- Embeds the Normalizer branch of `process_image` (`src/app.py` lines
72-74).  A `uint8` band skips the branch and is returned as is; otherwise
`cv2.normalize(..., NORM_MINMAX)` with bounds `0, 255` computes
`scale = 255 / (max - min)` (zero when the source range does not exceed
`DBL_EPSILON`) and `shift = 0 - min * scale`, applies them to every pixel
and converts per `normalizePixel`. -/
def normalizeBand (d : DType) (b : List (List ℚ)) : List (List ℚ) :=
  if d = DType.uint8 then b
  else
    let scale : ℚ := if dblEpsilon < arrMax b.join - arrMin b.join
      then 255 / (arrMax b.join - arrMin b.join) else 0
    let shift : ℚ := 0 - arrMin b.join * scale
    b.map (fun row => row.map (fun x => normalizePixel d scale shift x))

/-- Lower end of the `np.histogram` range when no explicit range is given:
the data minimum, pushed down by 1/2 when the data are constant (numpy
expands a degenerate range to keep the bins nonempty). -/
def histLo (xs : List ℚ) : ℚ :=
  if arrMin xs = arrMax xs then arrMin xs - 1 / 2 else arrMin xs

/-- Upper end of the `np.histogram` range: the data maximum, pushed up by
1/2 when the data are constant. -/
def histHi (xs : List ℚ) : ℚ :=
  if arrMin xs = arrMax xs then arrMax xs + 1 / 2 else arrMax xs

/-- The `i`-th of the `k + 1` evenly spaced bin edges
`np.linspace(lo, hi, k + 1)` used by `np.histogram(xs, bins=k)`
(`ax.hist` on `src/app.py` line 87 delegates to it). -/
def binEdge (xs : List ℚ) (k i : ℕ) : ℚ :=
  histLo xs + (histHi xs - histLo xs) * i / k

/-- The bin edge list returned by the Histogram Builder. -/
def binEdges (xs : List ℚ) (k : ℕ) : List ℚ :=
  (List.range (k + 1)).map (fun i => binEdge xs k i)

/-- The count of the `i`-th histogram bin: bins are half-open
`[e_i, e_{i+1})` except the last, which is closed. -/
def binCount (xs : List ℚ) (k i : ℕ) : ℕ :=
  if i + 1 = k then
    xs.countP (fun x => decide (binEdge xs k i ≤ x ∧ x ≤ binEdge xs k (i + 1)))
  else
    xs.countP (fun x => decide (binEdge xs k i ≤ x ∧ x < binEdge xs k (i + 1)))

/-- The bin count list returned by the Histogram Builder. -/
def histCounts (xs : List ℚ) (k : ℕ) : List ℕ :=
  (List.range k).map (fun i => binCount xs k i)

/-- `np.mean` over the flattened pixels. -/
def npMean (xs : List ℚ) : ℚ :=
  xs.sum / (xs.length : ℚ)

/-- `np.var`: the mean of the squared deviations from the mean (division by
`N`, numpy's default `ddof=0`). -/
def npVar (xs : List ℚ) : ℚ :=
  ((xs.map (fun x => (x - npMean xs) ^ 2)).sum) / (xs.length : ℚ)

/-- `np.std`: the square root of `np.var`. -/
noncomputable def npStd (xs : List ℚ) : ℝ :=
  Real.sqrt ((npVar xs : ℚ) : ℝ)

/-- The pixels in ascending order, as `np.median` partitions them. -/
def sortedPixels (xs : List ℚ) : List ℚ :=
  List.insertionSort (fun a b => a ≤ b) xs

/-- `np.median`: middle element of the sorted data for odd length, average
of the two middle elements for even length. -/
def npMedian (xs : List ℚ) : ℚ :=
  if xs.length % 2 = 1 then (sortedPixels xs).getD (xs.length / 2) 0
  else ((sortedPixels xs).getD (xs.length / 2 - 1) 0 +
    (sortedPixels xs).getD (xs.length / 2) 0) / 2

/-- The named scalar outputs of `calculate_statistics`
(`src/app.py` lines 103-114), field per dictionary key. -/
structure StatisticsSummary where
  media : ℚ
  mediana : ℚ
  desviacionEstandar : ℝ
  varianza : ℚ
  minimo : ℚ
  maximo : ℚ
  rango : ℚ
  pixelesTotales : ℕ

/-- Embeds `calculate_statistics` (`src/app.py` lines 103-114): each numpy
reduction applied to the full (flattened) pixel set of the band. -/
noncomputable def calculate_statistics (img : List (List ℚ)) : StatisticsSummary :=
  { media := npMean img.join
    mediana := npMedian img.join
    desviacionEstandar := npStd img.join
    varianza := npVar img.join
    minimo := arrMin img.join
    maximo := arrMax img.join
    rango := arrMax img.join - arrMin img.join
    pixelesTotales := img.join.length }

theorem getD_mem_or_default {α : Type} (l : List α) (j : ℕ) (d : α) :
    l.getD j d ∈ l ∨ l.getD j d = d := by
  induction l generalizing j with
  | nil =>
    right
    cases j <;> rfl
  | cons x r ih =>
    cases j with
    | zero =>
      left
      simp
    | succ j =>
      rcases ih j with h | h
      · left
        simp only [List.getD_cons_succ]
        exact List.mem_cons_of_mem _ h
      · right
        simpa using h

theorem getD_mem_of_lt {α : Type} (l : List α) (j : ℕ) (d : α)
    (h : j < l.length) : l.getD j d ∈ l := by
  induction l generalizing j with
  | nil => simp at h
  | cons x r ih =>
    cases j with
    | zero => simp
    | succ j =>
      simp only [List.getD_cons_succ]
      exact List.mem_cons_of_mem _ (ih j (by simpa using h))

theorem pixel_mem_join_or_zero (nb : List (List ℕ)) (i j : ℕ) :
    ((nb.getD i []).getD j 0) ∈ nb.join ∨ ((nb.getD i []).getD j 0) = 0 := by
  rcases getD_mem_or_default nb i [] with hrow | hrow
  · rcases getD_mem_or_default (nb.getD i []) j 0 with hpx | hpx
    · left
      exact List.mem_join.mpr ⟨nb.getD i [], hrow, hpx⟩
    · right
      exact hpx
  · right
    rw [hrow]
    cases j <;> rfl

theorem pixel_mem_join {α : Type} (b : List (List α)) (i j : ℕ) (d : α)
    (hi : i < b.length) (hj : j < (b.getD i []).length) :
    (b.getD i []).getD j d ∈ b.join :=
  List.mem_join.mpr ⟨b.getD i [], getD_mem_of_lt b i [] hi,
    getD_mem_of_lt _ j d hj⟩

theorem binarize_row_getD (row : List ℕ) (t j : ℕ) :
    ((row.map (fun p => (if t < p then 1 else 0) * 255)).getD j 0) =
      if t < row.getD j 0 then 255 else 0 := by
  induction row generalizing j with
  | nil =>
    have h0 : ¬ t < 0 := by omega
    simp [h0]
  | cons p r ih =>
    cases j with
    | zero =>
      by_cases h : t < p <;> simp [h]
    | succ j =>
      simpa using ih j

theorem binarize_getD (nb : List (List ℕ)) (t i j : ℕ) :
    ((binarize nb t).getD i []).getD j 0 =
      if t < (nb.getD i []).getD j 0 then 255 else 0 := by
  induction nb generalizing i with
  | nil =>
    have h0 : ¬ t < 0 := by omega
    simp [binarize, h0]
  | cons row rest ih =>
    cases i with
    | zero => simpa [binarize] using binarize_row_getD row t j
    | succ i => simpa [binarize] using ih i

theorem binarize_length (nb : List (List ℕ)) (t : ℕ) :
    (binarize nb t).length = nb.length := by
  simp [binarize]

theorem binarize_row_length (nb : List (List ℕ)) (t : ℕ) (i : ℕ) :
    ((binarize nb t).getD i []).length = (nb.getD i []).length := by
  induction nb generalizing i with
  | nil => simp [binarize]
  | cons row rest ih =>
    cases i with
    | zero => simp [binarize]
    | succ i => simpa [binarize] using ih i

/-- C5: when binarization is requested, the BinaryBand has the shape of the
normalized band, and each of its pixels is 255 exactly when the
corresponding normalized intensity strictly exceeds the computed Otsu
threshold, and 0 otherwise (a pixel exactly at the threshold maps to 0). -/
theorem claim5_binary_band (nb : List (List ℕ)) :
    (binarize nb (threshold_otsu nb.join)).length = nb.length ∧
    (∀ i : ℕ, ((binarize nb (threshold_otsu nb.join)).getD i []).length =
      (nb.getD i []).length) ∧
    (∀ i j : ℕ, ((binarize nb (threshold_otsu nb.join)).getD i []).getD j 0 =
      if threshold_otsu nb.join < (nb.getD i []).getD j 0 then 255 else 0) :=
  ⟨binarize_length nb _, fun i => binarize_row_length nb _ i,
    fun i j => binarize_getD nb _ i j⟩

/-- C3 counterexample: on the constant 2x2 normalized band of value 7 the
Otsu Thresholder of the code returns 7, not the threshold 0 the claim
states. -/
theorem claim3_counterexample :
    threshold_otsu ([[7, 7], [7, 7]] : List (List ℕ)).join = 7 ∧
    (7 : ℕ) ≠ 0 := by
  constructor
  · rfl
  · decide

/-- C3 (amended): on every constant normalized band the Otsu Thresholder
returns the constant pixel value itself (hence 0 only for an all-zero band)
as the threshold, and the BinaryBand is entirely zero; no crash occurs. -/
theorem claim3_constant_band (nb : List (List ℕ)) (v : ℕ)
    (hne : nb.join ≠ []) (hconst : ∀ x ∈ nb.join, x = v) :
    threshold_otsu nb.join = v ∧
    (∀ i j : ℕ, ((binarize nb (threshold_otsu nb.join)).getD i []).getD j 0 = 0) := by
  have hthr : threshold_otsu nb.join = v := by
    rcases hj : nb.join with _ | ⟨x, r⟩
    · exact absurd hj hne
    · have hx : x = v := hconst x (by rw [hj]; exact List.mem_cons_self _ _)
      have hall : ∀ y ∈ x :: r, y = x := by
        intro y hy
        have hyv : y = v := hconst y (by rw [hj]; exact hy)
        rw [hyv, hx]
      rw [threshold_otsu_constant x r hall, hx]
  refine ⟨hthr, fun i j => ?_⟩
  rw [binarize_getD, hthr]
  rcases pixel_mem_join_or_zero nb i j with h | h
  · rw [hconst _ h]
    simp
  · rw [h]
    simp

/-- C3 witness: the amended constant-band behaviour evaluated on the 2x2
band of value 7. -/
theorem claim3_constant_band_witness :
    ([[7, 7], [7, 7]] : List (List ℕ)).join ≠ [] ∧
    (∀ x ∈ ([[7, 7], [7, 7]] : List (List ℕ)).join, x = 7) ∧
    (threshold_otsu ([[7, 7], [7, 7]] : List (List ℕ)).join = 7 ∧
      (∀ i j : ℕ, ((binarize [[7, 7], [7, 7]]
        (threshold_otsu ([[7, 7], [7, 7]] : List (List ℕ)).join)).getD i []).getD j 0 = 0)) :=
  ⟨by decide, by decide,
    claim3_constant_band [[7, 7], [7, 7]] 7 (by decide) (by decide)⟩

/-- C6: the Band Selector returns a 2-D image unchanged (the requested band
is ignored), returns channel `b-1` of a 3-D image when `1 ≤ b ≤ C`, and
falls back to channel 0 (without failing) when `b > C`. -/
theorem claim6_band_selector (g : List (List ℚ)) (m : List (List (List ℚ)))
    (b : ℤ) (hb : 1 ≤ b) (hC : 1 ≤ nchannels m) :
    selectBand (RData.two g) b = some g ∧
    (b ≤ (nchannels m : ℤ) → selectBand (RData.three m) b =
      some (channelAt m (b - 1).toNat)) ∧
    ((nchannels m : ℤ) < b → selectBand (RData.three m) b =
      some (channelAt m 0)) := by
  have hCZ : (1 : ℤ) ≤ (nchannels m : ℤ) := by exact_mod_cast hC
  refine ⟨rfl, ?_, ?_⟩
  · intro hbc
    simp only [selectBand, npChannel]
    rw [if_pos hbc, if_pos ⟨by omega, by omega⟩]
  · intro hbc
    simp only [selectBand, npChannel]
    rw [if_neg (by omega), if_pos ⟨le_refl (0 : ℤ), by omega⟩]
    rfl

/-- C6 witness: a concrete in-range selection on a 1x1 image with two
channels. -/
theorem claim6_band_selector_witness :
    (1 : ℤ) ≤ 1 ∧ 1 ≤ nchannels [[[(5 : ℚ), 9]]] ∧
    (selectBand (RData.two [[(3 : ℚ)]]) 1 = some [[(3 : ℚ)]] ∧
      ((1 : ℤ) ≤ (nchannels [[[(5 : ℚ), 9]]] : ℤ) →
        selectBand (RData.three [[[(5 : ℚ), 9]]]) 1 =
          some (channelAt [[[(5 : ℚ), 9]]] ((1 : ℤ) - 1).toNat)) ∧
      ((nchannels [[[(5 : ℚ), 9]]] : ℤ) < 1 →
        selectBand (RData.three [[[(5 : ℚ), 9]]]) 1 =
          some (channelAt [[[(5 : ℚ), 9]]] 0))) :=
  ⟨by decide, by decide,
    claim6_band_selector [[(3 : ℚ)]] [[[(5 : ℚ), 9]]] 1 (by decide) (by decide)⟩

/-- C9 counterexample: on a 1x1 image with two channels and requested band
0 (non-positive), the Band Selector returns the LAST channel, which is
neither the documented fallback to channel 0 nor an error. -/
theorem claim9_counterexample :
    ¬ (selectBand (RData.three [[[(5 : ℚ), 9]]]) 0 =
        some (channelAt [[[(5 : ℚ), 9]]] 0) ∨
      selectBand (RData.three [[[(5 : ℚ), 9]]]) 0 = none) := by
  decide

/-- C9 (amended): for a 3-D image and a non-positive band index `b`, the
Band Selector performs Python negative indexing: it returns channel
`C + b - 1` when `b ≥ 1 - C` (so `b = 0` yields the last channel), and
fails with an (untyped) IndexError when `b < 1 - C`; it neither falls back
to channel 0 nor signals a typed InvalidBandIndex error. -/
theorem claim9_nonpositive_band (m : List (List (List ℚ))) (b : ℤ)
    (hb : b ≤ 0) (hC : 1 ≤ nchannels m) :
    selectBand (RData.three m) b =
      if 1 - (nchannels m : ℤ) ≤ b then
        some (channelAt m (b - 1 + (nchannels m : ℤ)).toNat)
      else none := by
  have hCZ : (1 : ℤ) ≤ (nchannels m : ℤ) := by exact_mod_cast hC
  simp only [selectBand, npChannel]
  rw [if_pos (by omega : b ≤ (nchannels m : ℤ))]
  rw [if_neg (by omega : ¬ (0 ≤ b - 1 ∧ b - 1 < (nchannels m : ℤ)))]
  by_cases h : 1 - (nchannels m : ℤ) ≤ b
  · rw [if_pos ⟨by omega, by omega⟩, if_pos h]
  · rw [if_neg (by omega), if_neg h]

/-- C9 witness: the amended behaviour evaluated at band 0 of a 1x1 image
with two channels. -/
theorem claim9_nonpositive_band_witness :
    (0 : ℤ) ≤ 0 ∧ 1 ≤ nchannels [[[(5 : ℚ), 9]]] ∧
    selectBand (RData.three [[[(5 : ℚ), 9]]]) 0 =
      (if 1 - (nchannels [[[(5 : ℚ), 9]]] : ℤ) ≤ 0 then
        some (channelAt [[[(5 : ℚ), 9]]] ((0 : ℤ) - 1 +
          (nchannels [[[(5 : ℚ), 9]]] : ℤ)).toNat)
      else none) :=
  ⟨by decide, by decide,
    claim9_nonpositive_band [[[(5 : ℚ), 9]]] 0 (by decide) (by decide)⟩

theorem map_row_getD (row : List ℚ) (f : ℚ → ℚ) (j : ℕ) (hf : f 0 = 0) :
    (row.map f).getD j 0 = f (row.getD j 0) := by
  induction row generalizing j with
  | nil => cases j <;> simp [hf]
  | cons x r ih =>
    cases j with
    | zero => simp
    | succ j => simpa using ih j

theorem map2_getD (b : List (List ℚ)) (f : ℚ → ℚ) (i j : ℕ) (hf : f 0 = 0) :
    ((b.map (fun row => row.map f)).getD i []).getD j 0 =
      f ((b.getD i []).getD j 0) := by
  induction b generalizing i with
  | nil => cases i <;> cases j <;> simp [hf]
  | cons row rest ih =>
    cases i with
    | zero =>
      simp only [List.map_cons, List.getD_cons_zero]
      exact map_row_getD row f j hf
    | succ i => simpa using ih i

theorem map_row_getD_of_lt (row : List ℚ) (f : ℚ → ℚ) (j : ℕ)
    (hj : j < row.length) : (row.map f).getD j 0 = f (row.getD j 0) := by
  induction row generalizing j with
  | nil => simp at hj
  | cons x r ih =>
    cases j with
    | zero => simp
    | succ j => simpa using ih j (by simpa using hj)

theorem map2_getD_of_lt (b : List (List ℚ)) (f : ℚ → ℚ) (i j : ℕ)
    (hi : i < b.length) (hj : j < (b.getD i []).length) :
    ((b.map (fun row => row.map f)).getD i []).getD j 0 =
      f ((b.getD i []).getD j 0) := by
  induction b generalizing i with
  | nil => simp at hi
  | cons row rest ih =>
    cases i with
    | zero =>
      simp only [List.map_cons, List.getD_cons_zero]
      exact map_row_getD_of_lt row f j (by simpa using hj)
    | succ i =>
      simpa using ih i (by simpa using hi) (by simpa using hj)

theorem cvRound_zero : cvRound 0 = 0 := by with_unfolding_all decide

theorem truncQ_zero : truncQ 0 = 0 := by with_unfolding_all decide

theorem normalizePixel_scale_zero (d : DType) (hd : d ≠ DType.uint8)
    (smin x : ℚ) : normalizePixel d 0 (0 - smin * 0) x = 0 := by
  have h : x * 0 + (0 - smin * 0) = 0 := by ring
  cases d with
  | uint8 => exact absurd rfl hd
  | uint16 =>
    simp only [normalizePixel, h, cvRound_zero]
    decide
  | float64 =>
    simp only [normalizePixel, h, truncQ_zero]
    rfl

theorem cvRound_nonneg (y : ℚ) (h0 : 0 ≤ y) : 0 ≤ cvRound y := by
  have hfl : 0 ≤ ⌊y⌋ := Int.floor_nonneg.mpr h0
  unfold cvRound
  split_ifs <;> omega

theorem cvRound_le_255 (y : ℚ) (h255 : y ≤ 255) : cvRound y ≤ 255 := by
  have hfl : ⌊y⌋ ≤ 255 := by
    have h := Int.floor_le_floor h255
    have h255f : ⌊(255 : ℚ)⌋ = 255 := by norm_num
    rw [h255f] at h
    exact h
  have haux : 1 / 2 ≤ y - ⌊y⌋ → ⌊y⌋ + 1 ≤ 255 := by
    intro hhalf
    have h1 : ((⌊y⌋ : ℤ) : ℚ) ≤ y - 1 / 2 := by linarith
    have h2 : ((⌊y⌋ : ℤ) : ℚ) < 255 := by linarith
    have h3 : ⌊y⌋ < 255 := by exact_mod_cast h2
    omega
  unfold cvRound
  split_ifs with h1 h2 h3
  · exact hfl
  · exact haux (le_of_lt h2)
  · exact hfl
  · exact haux (le_of_not_lt h1)

/-- C2 counterexample: on the floating-point band `[[0, 1, 128]]` the middle
pixel maps linearly to `255/128 = 1.9921875`, whose nearest integer is 2,
but the code (numpy `astype(np.uint8)` after `cv2.normalize`) truncates it
to 1. -/
theorem claim2_counterexample :
    ((normalizeBand DType.float64 [[0, 1, 128]]).getD 0 []).getD 1 0 = 1 ∧
    round ((((1 : ℚ) - 0) * 255) / (128 - 0)) = 2 ∧ (1 : ℚ) ≠ 2 := by
  refine ⟨by with_unfolding_all decide, ?_, by with_unfolding_all decide⟩
  with_unfolding_all decide

/-- C2 (amended): a `uint8` band is returned unchanged; for any other
dtype, when the band's value range does not exceed `DBL_EPSILON` (in
particular when min = max) every output pixel is 0; otherwise each pixel is
the linear map of `[min, max]` onto `[0, 255]` converted to an integer by
truncation toward zero for floating-point bands (not rounding to nearest)
and by rounding half to even for `uint16` bands, with float outputs lying
in `[0, 255]`. -/
theorem claim2_normalizer (b : List (List ℚ)) (d : DType) :
    (normalizeBand DType.uint8 b = b) ∧
    (d ≠ DType.uint8 → arrMax b.join - arrMin b.join ≤ dblEpsilon →
      ∀ i j : ℕ, ((normalizeBand d b).getD i []).getD j 0 = 0) ∧
    (dblEpsilon < arrMax b.join - arrMin b.join →
      ∀ i j : ℕ, i < b.length → j < (b.getD i []).length →
        ((normalizeBand DType.float64 b).getD i []).getD j 0 =
          ((⌊(((b.getD i []).getD j 0) - arrMin b.join) * 255 /
            (arrMax b.join - arrMin b.join)⌋ : ℤ) : ℚ) ∧
        0 ≤ ((normalizeBand DType.float64 b).getD i []).getD j 0 ∧
        ((normalizeBand DType.float64 b).getD i []).getD j 0 ≤ 255) ∧
    (dblEpsilon < arrMax b.join - arrMin b.join →
      ∀ i j : ℕ, i < b.length → j < (b.getD i []).length →
        ((normalizeBand DType.uint16 b).getD i []).getD j 0 =
          ((cvRound ((((b.getD i []).getD j 0) - arrMin b.join) * 255 /
            (arrMax b.join - arrMin b.join)) : ℤ) : ℚ)) := by
  have heps : (0 : ℚ) < dblEpsilon := by norm_num [dblEpsilon]
  refine ⟨by simp [normalizeBand], ?_, ?_, ?_⟩
  · intro hd hsmall i j
    simp only [normalizeBand, if_neg hd, if_neg (not_lt.mpr hsmall)]
    rw [map2_getD b _ i j (normalizePixel_scale_zero d hd _ 0)]
    exact normalizePixel_scale_zero d hd _ _
  · intro hbig i j hi hj
    have hden : (0 : ℚ) < arrMax b.join - arrMin b.join := lt_trans heps hbig
    have hd : DType.float64 ≠ DType.uint8 := by decide
    simp only [normalizeBand, if_neg hd, if_pos hbig]
    rw [map2_getD_of_lt b _ i j hi hj]
    have hx := pixel_mem_join b i j 0 hi hj
    have hxlo := arrMin_le b.join _ hx
    have hxhi := le_arrMax b.join _ hx
    have hy : (b.getD i []).getD j 0 * (255 / (arrMax b.join - arrMin b.join)) +
        (0 - arrMin b.join * (255 / (arrMax b.join - arrMin b.join))) =
        (((b.getD i []).getD j 0) - arrMin b.join) * 255 /
          (arrMax b.join - arrMin b.join) := by
      field_simp
      ring
    have hy0 : 0 ≤ (((b.getD i []).getD j 0) - arrMin b.join) * 255 /
        (arrMax b.join - arrMin b.join) := by
      apply div_nonneg _ (le_of_lt hden)
      nlinarith
    have hy255 : (((b.getD i []).getD j 0) - arrMin b.join) * 255 /
        (arrMax b.join - arrMin b.join) ≤ 255 := by
      rw [div_le_iff hden]
      nlinarith
    simp only [normalizePixel, hy]
    rw [show truncQ ((((b.getD i []).getD j 0) - arrMin b.join) * 255 /
      (arrMax b.join - arrMin b.join)) =
      ⌊(((b.getD i []).getD j 0) - arrMin b.join) * 255 /
        (arrMax b.join - arrMin b.join)⌋ from if_pos hy0]
    refine ⟨rfl, ?_, ?_⟩
    · have := Int.floor_nonneg.mpr hy0
      exact_mod_cast this
    · have h := Int.floor_le_floor hy255
      have h255f : ⌊(255 : ℚ)⌋ = 255 := by norm_num
      rw [h255f] at h
      exact_mod_cast h
  · intro hbig i j hi hj
    have hden : (0 : ℚ) < arrMax b.join - arrMin b.join := lt_trans heps hbig
    have hd : DType.uint16 ≠ DType.uint8 := by decide
    simp only [normalizeBand, if_neg hd, if_pos hbig]
    rw [map2_getD_of_lt b _ i j hi hj]
    have hx := pixel_mem_join b i j 0 hi hj
    have hxlo := arrMin_le b.join _ hx
    have hxhi := le_arrMax b.join _ hx
    have hy : (b.getD i []).getD j 0 * (255 / (arrMax b.join - arrMin b.join)) +
        (0 - arrMin b.join * (255 / (arrMax b.join - arrMin b.join))) =
        (((b.getD i []).getD j 0) - arrMin b.join) * 255 /
          (arrMax b.join - arrMin b.join) := by
      field_simp
      ring
    have hy0 : 0 ≤ (((b.getD i []).getD j 0) - arrMin b.join) * 255 /
        (arrMax b.join - arrMin b.join) := by
      apply div_nonneg _ (le_of_lt hden)
      nlinarith
    have hy255 : (((b.getD i []).getD j 0) - arrMin b.join) * 255 /
        (arrMax b.join - arrMin b.join) ≤ 255 := by
      rw [div_le_iff hden]
      nlinarith
    simp only [normalizePixel, hy]
    have hr0 := cvRound_nonneg _ hy0
    have hr255 := cvRound_le_255 _ hy255
    have hsat : satU16 (cvRound ((((b.getD i []).getD j 0) - arrMin b.join) * 255 /
        (arrMax b.join - arrMin b.join))) % 256 =
        cvRound ((((b.getD i []).getD j 0) - arrMin b.join) * 255 /
          (arrMax b.join - arrMin b.join)) := by
      unfold satU16
      omega
    rw [hsat]

/-- C2 witness: the amended float behaviour evaluated on the band
`[[0, 1, 128]]` at pixel (0, 1). -/
theorem claim2_normalizer_witness :
    dblEpsilon < arrMax ([[(0 : ℚ), 1, 128]] : List (List ℚ)).join -
      arrMin ([[(0 : ℚ), 1, 128]] : List (List ℚ)).join ∧
    (0 : ℕ) < ([[(0 : ℚ), 1, 128]] : List (List ℚ)).length ∧
    (((normalizeBand DType.float64 [[(0 : ℚ), 1, 128]]).getD 0 []).getD 1 0 =
      ((⌊((([[(0 : ℚ), 1, 128]] : List (List ℚ)).getD 0 []).getD 1 0 -
        arrMin ([[(0 : ℚ), 1, 128]] : List (List ℚ)).join) * 255 /
        (arrMax ([[(0 : ℚ), 1, 128]] : List (List ℚ)).join -
          arrMin ([[(0 : ℚ), 1, 128]] : List (List ℚ)).join)⌋ : ℤ) : ℚ) ∧
      0 ≤ ((normalizeBand DType.float64 [[(0 : ℚ), 1, 128]]).getD 0 []).getD 1 0 ∧
      ((normalizeBand DType.float64 [[(0 : ℚ), 1, 128]]).getD 0 []).getD 1 0 ≤ 255) :=
  ⟨by with_unfolding_all decide, by decide,
    (claim2_normalizer [[(0 : ℚ), 1, 128]] DType.float64).2.2.1
      (by with_unfolding_all decide) 0 1 (by decide) (by decide)⟩

/-- The 4x4 two-cluster example band of the specification: 8 pixels at
intensity 10 and 8 pixels at intensity 200. -/
def exBand : List (List ℕ) :=
  [[10, 10, 10, 10], [10, 10, 10, 10], [200, 200, 200, 200], [200, 200, 200, 200]]

theorem exBand_nLe (t : ℕ) (h1 : 10 ≤ t) (h2 : t < 200) :
    nLe exBand.join t = 8 := by
  have e1 : decide (10 ≤ t) = true := decide_eq_true h1
  have e2 : decide (200 ≤ t) = false := decide_eq_false (by omega)
  simp [nLe, exBand, List.countP_cons, e1, e2]

theorem exBand_nGt (t : ℕ) (h1 : 10 ≤ t) (h2 : t < 200) :
    nGt exBand.join t = 8 := by
  have e1 : decide (t < 10) = false := decide_eq_false (by omega)
  have e2 : decide (t < 200) = true := decide_eq_true h2
  simp [nGt, exBand, List.countP_cons, e1, e2]

theorem exBand_sumLe (t : ℕ) (h1 : 10 ≤ t) (h2 : t < 200) :
    sumLe exBand.join t = 80 := by
  have e1 : decide (10 ≤ t) = true := decide_eq_true h1
  have e2 : decide (200 ≤ t) = false := decide_eq_false (by omega)
  simp [sumLe, exBand, List.filter_cons, e1, e2]

theorem exBand_sumGt (t : ℕ) (h1 : 10 ≤ t) (h2 : t < 200) :
    sumGt exBand.join t = 1600 := by
  have e1 : decide (t < 10) = false := decide_eq_false (by omega)
  have e2 : decide (t < 200) = true := decide_eq_true h2
  simp [sumGt, exBand, List.filter_cons, e1, e2]

theorem exBand_sigmaB_const (t : ℕ) (h1 : 10 ≤ t) (h2 : t < 200) :
    sigmaB exBand.join t = sigmaB exBand.join 10 := by
  unfold sigmaB
  rw [exBand_nLe t h1 h2, exBand_nGt t h1 h2, exBand_sumLe t h1 h2,
    exBand_sumGt t h1 h2, exBand_nLe 10 (by omega) (by omega),
    exBand_nGt 10 (by omega) (by omega), exBand_sumLe 10 (by omega) (by omega),
    exBand_sumGt 10 (by omega) (by omega)]

/-- On the two-cluster example every candidate split gives the same
between-class variance, so the first-occurrence argmax lands on the first
candidate and the code returns the lower cluster value 10. -/
theorem threshold_otsu_exBand : threshold_otsu exBand.join = 10 := by
  have hne : exBand.join ≠ [] := by decide
  have hnc : isConstant exBand.join = false := by decide
  have hmin : arrMin exBand.join = 10 := by decide
  have hmax : arrMax exBand.join = 200 := by decide
  have hL : otsuL exBand.join = 191 := by
    unfold otsuL
    rw [hmin, hmax]
  have hvconst : ∀ i : ℕ, i ≤ 189 →
      variance12 exBand.join i = variance12 exBand.join 0 := by
    intro i hi
    have hv1 := variance12_eq_sigmaB exBand.join hne i (by omega)
    have hv2 := variance12_eq_sigmaB exBand.join hne 0 (by omega)
    rw [hmin] at hv1 hv2
    rw [hv1, hv2, exBand_sigmaB_const (10 + i) (by omega) (by omega),
      exBand_sigmaB_const (10 + 0) (by omega) (by omega)]
  have hthr : threshold_otsu exBand.join = arrMin exBand.join +
      (argmaxAcc (variance12 exBand.join) (otsuL exBand.join - 2)).1 := by
    rw [show exBand.join = 10 :: [10, 10, 10, 10, 10, 10, 10,
      200, 200, 200, 200, 200, 200, 200, 200] from rfl]
    exact threshold_otsu_eq_argmax 10 _ (by decide)
  have hn189 : otsuL exBand.join - 2 = 189 := by omega
  rw [hn189] at hthr
  have hbest_le : (argmaxAcc (variance12 exBand.join) 189).1 ≤ 189 :=
    argmaxAcc_fst_le _ _
  have hfeq : variance12 exBand.join 0 =
      variance12 exBand.join ((argmaxAcc (variance12 exBand.join) 189).1) :=
    (hvconst _ hbest_le).symm
  have hminidx := argmaxAcc_min (variance12 exBand.join) 189 0 (by omega) hfeq
  rw [hthr, hmin]
  omega

/-- C4 counterexample: on the 16-pixel example band (8 pixels at 10, 8 at
200) the code returns threshold 10 — the lower cluster value — which is not
strictly between 10 and 200 as the claim states. -/
theorem claim4_counterexample :
    threshold_otsu exBand.join = 10 ∧
    ¬ (10 < threshold_otsu exBand.join ∧ threshold_otsu exBand.join < 200) := by
  refine ⟨threshold_otsu_exBand, ?_⟩
  rw [threshold_otsu_exBand]
  omega

/-- C4 (amended): for every non-constant NormalizedBand the Otsu
Thresholder returns a threshold in [0, 255] that maximizes the
between-class variance of the classes `{p : p ≤ t}` and `{p : p > t}`,
picking the smallest maximizer; on the 16-pixel band with 8 pixels at 10
and 8 pixels at 200 the threshold is exactly 10 (the smallest maximizer),
not strictly between the clusters. -/
theorem claim4_otsu_threshold :
    (∀ nb : List (List ℕ), nb.join ≠ [] → (∀ x ∈ nb.join, x ≤ 255) →
      isConstant nb.join = false →
      threshold_otsu nb.join ≤ 255 ∧
      (∀ s : ℕ, sigmaB nb.join s ≤ sigmaB nb.join (threshold_otsu nb.join)) ∧
      (∀ s : ℕ, sigmaB nb.join s = sigmaB nb.join (threshold_otsu nb.join) →
        threshold_otsu nb.join ≤ s)) ∧
    threshold_otsu exBand.join = 10 := by
  refine ⟨?_, threshold_otsu_exBand⟩
  intro nb hne hub hnc
  obtain ⟨hlo, hhi, hmax, hmin⟩ := threshold_otsu_maximizes nb.join hne hnc
  refine ⟨?_, hmax, hmin⟩
  have hM : arrMax nb.join ≤ 255 := hub _ (arrMax_mem _ hne)
  omega

/-- C4 witness: the maximizer property instantiated on the concrete
non-constant band [[0, 0, 1]]. -/
theorem claim4_otsu_threshold_witness :
    ([[0, 0, 1]] : List (List ℕ)).join ≠ [] ∧
    (∀ x ∈ ([[0, 0, 1]] : List (List ℕ)).join, x ≤ 255) ∧
    isConstant ([[0, 0, 1]] : List (List ℕ)).join = false ∧
    (threshold_otsu ([[0, 0, 1]] : List (List ℕ)).join ≤ 255 ∧
      (∀ s : ℕ, sigmaB ([[0, 0, 1]] : List (List ℕ)).join s ≤
        sigmaB ([[0, 0, 1]] : List (List ℕ)).join
          (threshold_otsu ([[0, 0, 1]] : List (List ℕ)).join)) ∧
      (∀ s : ℕ, sigmaB ([[0, 0, 1]] : List (List ℕ)).join s =
        sigmaB ([[0, 0, 1]] : List (List ℕ)).join
          (threshold_otsu ([[0, 0, 1]] : List (List ℕ)).join) →
        threshold_otsu ([[0, 0, 1]] : List (List ℕ)).join ≤ s)) :=
  ⟨by decide, by decide, by decide,
    claim4_otsu_threshold.1 [[0, 0, 1]] (by decide) (by decide) (by decide)⟩

theorem histLo_lt_histHi (xs : List ℚ) (hne : xs ≠ []) :
    histLo xs < histHi xs := by
  unfold histLo histHi
  by_cases h : arrMin xs = arrMax xs
  · rw [if_pos h, if_pos h, h]
    linarith
  · rw [if_neg h, if_neg h]
    exact lt_of_le_of_ne (arrMin_le_arrMax xs hne) h

theorem histLo_le_mem (xs : List ℚ) (x : ℚ) (hx : x ∈ xs) :
    histLo xs ≤ x := by
  have h1 := arrMin_le xs x hx
  unfold histLo
  by_cases h : arrMin xs = arrMax xs
  · rw [if_pos h]
    linarith
  · rw [if_neg h]
    exact h1

theorem mem_le_histHi (xs : List ℚ) (x : ℚ) (hx : x ∈ xs) :
    x ≤ histHi xs := by
  have h1 := le_arrMax xs x hx
  unfold histHi
  by_cases h : arrMin xs = arrMax xs
  · rw [if_pos h]
    linarith
  · rw [if_neg h]
    exact h1

theorem binEdge_zero (xs : List ℚ) (k : ℕ) : binEdge xs k 0 = histLo xs := by
  simp [binEdge]

theorem binEdge_last (xs : List ℚ) (k : ℕ) (hk : 1 ≤ k) :
    binEdge xs k k = histHi xs := by
  unfold binEdge
  have hkQ : ((k : ℕ) : ℚ) ≠ 0 := by
    have : k ≠ 0 := by omega
    exact_mod_cast this
  field_simp

theorem binEdge_mono (xs : List ℚ) (hne : xs ≠ []) (k i j : ℕ) (hij : i ≤ j) :
    binEdge xs k i ≤ binEdge xs k j := by
  unfold binEdge
  have hlh := histLo_lt_histHi xs hne
  have hijQ : ((i : ℕ) : ℚ) ≤ ((j : ℕ) : ℚ) := by exact_mod_cast hij
  by_cases hk : k = 0
  · subst hk
    simp
  · have hkQ : (0 : ℚ) < ((k : ℕ) : ℚ) := by
      have : 0 < k := by omega
      exact_mod_cast this
    have hmul : (histHi xs - histLo xs) * (i : ℚ) ≤
        (histHi xs - histLo xs) * (j : ℚ) :=
      mul_le_mul_of_nonneg_left hijQ (by linarith)
    have hdiv := (div_le_div_right hkQ).mpr hmul
    linarith

theorem hist_split (xs : List ℚ) (a b c : ℚ) (hab : a ≤ b) (hbc : b ≤ c) :
    xs.countP (fun x => decide (a ≤ x ∧ x < c)) =
      xs.countP (fun x => decide (a ≤ x ∧ x < b)) +
      xs.countP (fun x => decide (b ≤ x ∧ x < c)) := by
  refine countP_split xs _ _ _ (fun x _ => ?_)
  rcases lt_or_le x b with hxb | hxb
  · have h3 : ¬ b ≤ x := not_le.mpr hxb
    by_cases h1 : a ≤ x
    · have hc : x < c := lt_of_lt_of_le hxb hbc
      simp [h1, hxb, h3, hc]
    · simp [h1, h3]
  · have h1 : a ≤ x := le_trans hab hxb
    have h2 : ¬ x < b := not_lt.mpr hxb
    by_cases h4 : x < c <;> simp [h1, h2, hxb, h4]

theorem hist_split_last (xs : List ℚ) (a b c : ℚ) (hab : a ≤ b) (hbc : b ≤ c) :
    xs.countP (fun x => decide (a ≤ x ∧ x ≤ c)) =
      xs.countP (fun x => decide (a ≤ x ∧ x < b)) +
      xs.countP (fun x => decide (b ≤ x ∧ x ≤ c)) := by
  refine countP_split xs _ _ _ (fun x _ => ?_)
  rcases lt_or_le x b with hxb | hxb
  · have h3 : ¬ b ≤ x := not_le.mpr hxb
    by_cases h1 : a ≤ x
    · have hc : x ≤ c := le_trans (le_of_lt hxb) hbc
      simp [h1, hxb, h3, hc]
    · simp [h1, h3]
  · have h1 : a ≤ x := le_trans hab hxb
    have h2 : ¬ x < b := not_lt.mpr hxb
    by_cases h4 : x ≤ c <;> simp [h1, h2, hxb, h4]

/-- Partial sums of a sequence of naturals. -/
def rsumN (f : ℕ → ℕ) : ℕ → ℕ
  | 0 => 0
  | n + 1 => rsumN f n + f n

theorem sum_range_map (f : ℕ → ℕ) (n : ℕ) :
    ((List.range n).map f).sum = rsumN f n := by
  induction n with
  | zero => simp [rsumN]
  | succ n ih =>
    rw [List.range_succ]
    simp only [List.map_append, List.sum_append, List.map_cons, List.map_nil,
      List.sum_cons, List.sum_nil, ih]
    show rsumN f n + (f n + 0) = rsumN f n + f n
    omega

theorem rsumN_binCount (xs : List ℚ) (hne : xs ≠ []) (k : ℕ) (hk : 1 ≤ k) :
    ∀ j : ℕ, j ≤ k - 1 → rsumN (binCount xs k) j =
      xs.countP (fun x => decide (binEdge xs k 0 ≤ x ∧ x < binEdge xs k j)) := by
  intro j
  induction j with
  | zero =>
    intro _
    symm
    refine List.countP_eq_zero.mpr (fun x _ => ?_)
    simp only [decide_eq_true_eq, not_and, not_lt]
    intro h
    exact h
  | succ j ih =>
    intro hj
    show rsumN (binCount xs k) j + binCount xs k j = _
    rw [ih (by omega)]
    have hbc : binCount xs k j = xs.countP
        (fun x => decide (binEdge xs k j ≤ x ∧ x < binEdge xs k (j + 1))) := by
      unfold binCount
      rw [if_neg (by omega)]
    rw [hbc]
    exact (hist_split xs _ _ _ (binEdge_mono xs hne k 0 j (by omega))
      (binEdge_mono xs hne k j (j + 1) (by omega))).symm

/-- C7: for every non-empty band and every bin count `k ≥ 1`, the Histogram
Builder's bin counts sum exactly to the pixel count of the band
(conservation law). -/
theorem claim7_conservation (band : List (List ℚ)) (k : ℕ)
    (hne : band.join ≠ []) (hk : 1 ≤ k) :
    (histCounts band.join k).sum = band.join.length := by
  obtain ⟨k1, rfl⟩ : ∃ k1, k = k1 + 1 := ⟨k - 1, by omega⟩
  have hsum : (histCounts band.join (k1 + 1)).sum =
      rsumN (binCount band.join (k1 + 1)) (k1 + 1) := sum_range_map _ _
  have htel := rsumN_binCount band.join hne (k1 + 1) (by omega) k1 (by omega)
  have hlast : binCount band.join (k1 + 1) k1 = band.join.countP
      (fun x => decide (binEdge band.join (k1 + 1) k1 ≤ x ∧
        x ≤ binEdge band.join (k1 + 1) (k1 + 1))) := by
    unfold binCount
    rw [if_pos rfl]
  have hsplit := hist_split_last band.join (binEdge band.join (k1 + 1) 0)
    (binEdge band.join (k1 + 1) k1) (binEdge band.join (k1 + 1) (k1 + 1))
    (binEdge_mono band.join hne (k1 + 1) 0 k1 (by omega))
    (binEdge_mono band.join hne (k1 + 1) k1 (k1 + 1) (by omega))
  have hall : band.join.countP (fun x => decide (binEdge band.join (k1 + 1) 0 ≤ x ∧
      x ≤ binEdge band.join (k1 + 1) (k1 + 1))) = band.join.length := by
    refine List.countP_eq_length.mpr (fun x hx => ?_)
    have h1 : binEdge band.join (k1 + 1) 0 ≤ x := by
      rw [binEdge_zero]
      exact histLo_le_mem _ x hx
    have h2 : x ≤ binEdge band.join (k1 + 1) (k1 + 1) := by
      rw [binEdge_last _ _ (by omega)]
      exact mem_le_histHi _ x hx
    simp [h1, h2]
  rw [hsum]
  show rsumN (binCount band.join (k1 + 1)) k1 + binCount band.join (k1 + 1) k1 = _
  rw [htel, hlast, ← hsplit, hall]

/-- C7 witness: conservation evaluated on the 2x2 band [[0, 64], [128, 255]]
with 4 bins. -/
theorem claim7_conservation_witness :
    ([[(0 : ℚ), 64], [128, 255]] : List (List ℚ)).join ≠ [] ∧ 1 ≤ 4 ∧
    (histCounts ([[(0 : ℚ), 64], [128, 255]] : List (List ℚ)).join 4).sum =
      ([[(0 : ℚ), 64], [128, 255]] : List (List ℚ)).join.length :=
  ⟨by decide, by decide,
    claim7_conservation [[(0 : ℚ), 64], [128, 255]] 4 (by decide) (by decide)⟩

/-- C1 counterexample: the Histogram Builder's edges on the 2x2 band
[[0, 64], [128, 255]] with 4 bins are NOT the claimed fixed-range edges
[0, 64, 128, 192, 256] (they span the data range [0, 255] instead). -/
theorem claim1_counterexample :
    binEdges ([[(0 : ℚ), 64], [128, 255]] : List (List ℚ)).join 4 ≠
      [0, 64, 128, 192, 256] := by
  with_unfolding_all decide

set_option maxRecDepth 1000000 in
set_option maxHeartbeats 1000000 in
/-- C1 (amended): for every non-empty band and bin count `k ≥ 1` the
Histogram Builder produces `k` counts and `k + 1` evenly spaced edges which
span the data range [min, max] (expanded by 1/2 on each side for a constant
band) — not the fixed range [0, 256); the 2x2 band [[0, 64], [128, 255]]
with 4 bins yields edges [0, 63.75, 127.5, 191.25, 255] and counts
[1, 1, 1, 1]. -/
theorem claim1_histogram :
    (∀ (band : List (List ℚ)) (k : ℕ), band.join ≠ [] → 1 ≤ k →
      (binEdges band.join k).length = k + 1 ∧
      (histCounts band.join k).length = k ∧
      binEdge band.join k 0 = histLo band.join ∧
      binEdge band.join k k = histHi band.join ∧
      (arrMin band.join < arrMax band.join →
        histLo band.join = arrMin band.join ∧
        histHi band.join = arrMax band.join) ∧
      (∀ i : ℕ, binEdge band.join k (i + 1) - binEdge band.join k i =
        (histHi band.join - histLo band.join) / (k : ℚ))) ∧
    binEdges ([[(0 : ℚ), 64], [128, 255]] : List (List ℚ)).join 4 =
      [0, 255 / 4, 255 / 2, 765 / 4, 255] ∧
    histCounts ([[(0 : ℚ), 64], [128, 255]] : List (List ℚ)).join 4 =
      [1, 1, 1, 1] := by
  refine ⟨?_, by with_unfolding_all decide, by with_unfolding_all decide⟩
  intro band k hne hk
  refine ⟨by simp [binEdges], by simp [histCounts], binEdge_zero _ _,
    binEdge_last _ _ hk, ?_, ?_⟩
  · intro hlt
    have hneq : arrMin band.join ≠ arrMax band.join := ne_of_lt hlt
    constructor
    · unfold histLo
      rw [if_neg hneq]
    · unfold histHi
      rw [if_neg hneq]
  · intro i
    unfold binEdge
    have hkQ : ((k : ℕ) : ℚ) ≠ 0 := by
      have hk0 : k ≠ 0 := by omega
      exact_mod_cast hk0
    push_cast
    field_simp
    ring

/-- C1 witness: the amended histogram contract instantiated on the 2x2
example band with 4 bins. -/
theorem claim1_histogram_witness :
    ([[(0 : ℚ), 64], [128, 255]] : List (List ℚ)).join ≠ [] ∧ 1 ≤ 4 ∧
    ((binEdges ([[(0 : ℚ), 64], [128, 255]] : List (List ℚ)).join 4).length = 5 ∧
      (histCounts ([[(0 : ℚ), 64], [128, 255]] : List (List ℚ)).join 4).length = 4 ∧
      binEdge ([[(0 : ℚ), 64], [128, 255]] : List (List ℚ)).join 4 0 =
        histLo ([[(0 : ℚ), 64], [128, 255]] : List (List ℚ)).join ∧
      binEdge ([[(0 : ℚ), 64], [128, 255]] : List (List ℚ)).join 4 4 =
        histHi ([[(0 : ℚ), 64], [128, 255]] : List (List ℚ)).join ∧
      (arrMin ([[(0 : ℚ), 64], [128, 255]] : List (List ℚ)).join <
          arrMax ([[(0 : ℚ), 64], [128, 255]] : List (List ℚ)).join →
        histLo ([[(0 : ℚ), 64], [128, 255]] : List (List ℚ)).join =
          arrMin ([[(0 : ℚ), 64], [128, 255]] : List (List ℚ)).join ∧
        histHi ([[(0 : ℚ), 64], [128, 255]] : List (List ℚ)).join =
          arrMax ([[(0 : ℚ), 64], [128, 255]] : List (List ℚ)).join) ∧
      (∀ i : ℕ, binEdge ([[(0 : ℚ), 64], [128, 255]] : List (List ℚ)).join 4 (i + 1) -
          binEdge ([[(0 : ℚ), 64], [128, 255]] : List (List ℚ)).join 4 i =
        (histHi ([[(0 : ℚ), 64], [128, 255]] : List (List ℚ)).join -
          histLo ([[(0 : ℚ), 64], [128, 255]] : List (List ℚ)).join) / (4 : ℚ))) :=
  ⟨by decide, by decide,
    claim1_histogram.1 [[(0 : ℚ), 64], [128, 255]] 4 (by decide) (by decide)⟩

theorem qsum_le_mul_length (l : List ℚ) (t : ℚ) (h : ∀ x ∈ l, x ≤ t) :
    l.sum ≤ t * (l.length : ℚ) := by
  induction l with
  | nil => simp
  | cons x r ih =>
    have hx := h x (List.mem_cons_self _ _)
    have hr := ih (fun y hy => h y (List.mem_cons_of_mem _ hy))
    simp only [List.sum_cons, List.length_cons]
    push_cast
    nlinarith

theorem qmul_length_le_sum (l : List ℚ) (b : ℚ) (h : ∀ x ∈ l, b ≤ x) :
    b * (l.length : ℚ) ≤ l.sum := by
  induction l with
  | nil => simp
  | cons x r ih =>
    have hx := h x (List.mem_cons_self _ _)
    have hr := ih (fun y hy => h y (List.mem_cons_of_mem _ hy))
    simp only [List.sum_cons, List.length_cons]
    push_cast
    nlinarith

/-- C8: on every non-empty band the Statistics Engine computes over the
full pixel set: a population variance (`N * variance` is the sum of squared
deviations from the mean, i.e. division by `N`, not `N - 1`), the standard
deviation as its nonnegative square root, the median as the average of the
two middle values of the sorted data when the pixel count is even, the
range as max minus min, a mean between min and max, and the exact pixel
count. -/
theorem claim8_statistics (band : List (List ℚ)) (hne : band.join ≠ []) :
    (calculate_statistics band).varianza * (band.join.length : ℚ) =
      (band.join.map (fun x => (x - (calculate_statistics band).media) ^ 2)).sum ∧
    0 ≤ (calculate_statistics band).desviacionEstandar ∧
    (calculate_statistics band).desviacionEstandar ^ 2 =
      (((calculate_statistics band).varianza : ℚ) : ℝ) ∧
    (band.join.length % 2 = 0 →
      2 * (calculate_statistics band).mediana =
        (sortedPixels band.join).getD (band.join.length / 2 - 1) 0 +
        (sortedPixels band.join).getD (band.join.length / 2) 0) ∧
    (calculate_statistics band).rango =
      (calculate_statistics band).maximo - (calculate_statistics band).minimo ∧
    (calculate_statistics band).minimo ≤ (calculate_statistics band).media ∧
    (calculate_statistics band).media ≤ (calculate_statistics band).maximo ∧
    (calculate_statistics band).pixelesTotales = band.join.length := by
  have hN : (0 : ℚ) < (band.join.length : ℚ) := by
    have hp : 0 < band.join.length := List.length_pos.mpr hne
    exact_mod_cast hp
  have hvar : 0 ≤ npVar band.join := by
    unfold npVar
    refine div_nonneg (List.sum_nonneg (fun x hx => ?_)) hN.le
    obtain ⟨y, _, rfl⟩ := List.mem_map.mp hx
    positivity
  simp only [calculate_statistics]
  refine ⟨?_, ?_, ?_, ?_, by trivial, ?_, ?_, by trivial⟩
  · unfold npVar npMean
    rw [div_mul_cancel₀ _ (ne_of_gt hN)]
  · exact Real.sqrt_nonneg _
  · unfold npStd
    exact Real.sq_sqrt (by exact_mod_cast hvar)
  · intro heven
    unfold npMedian
    rw [if_neg (by omega)]
    ring
  · unfold npMean
    rw [le_div_iff hN]
    exact qmul_length_le_sum band.join _ (fun x hx => arrMin_le _ x hx)
  · unfold npMean
    rw [div_le_iff hN]
    have := qsum_le_mul_length band.join _ (fun x hx => le_arrMax _ x hx)
    linarith

/-- C8 witness: the statistics contract instantiated on the 1x2 band
[[1, 3]]. -/
theorem claim8_statistics_witness :
    ([[(1 : ℚ), 3]] : List (List ℚ)).join ≠ [] ∧
    ((calculate_statistics [[(1 : ℚ), 3]]).varianza *
          (([[(1 : ℚ), 3]] : List (List ℚ)).join.length : ℚ) =
        (([[(1 : ℚ), 3]] : List (List ℚ)).join.map
          (fun x => (x - (calculate_statistics [[(1 : ℚ), 3]]).media) ^ 2)).sum ∧
    0 ≤ (calculate_statistics [[(1 : ℚ), 3]]).desviacionEstandar ∧
    (calculate_statistics [[(1 : ℚ), 3]]).desviacionEstandar ^ 2 =
      (((calculate_statistics [[(1 : ℚ), 3]]).varianza : ℚ) : ℝ) ∧
    (([[(1 : ℚ), 3]] : List (List ℚ)).join.length % 2 = 0 →
      2 * (calculate_statistics [[(1 : ℚ), 3]]).mediana =
        (sortedPixels ([[(1 : ℚ), 3]] : List (List ℚ)).join).getD
          (([[(1 : ℚ), 3]] : List (List ℚ)).join.length / 2 - 1) 0 +
        (sortedPixels ([[(1 : ℚ), 3]] : List (List ℚ)).join).getD
          (([[(1 : ℚ), 3]] : List (List ℚ)).join.length / 2) 0) ∧
    (calculate_statistics [[(1 : ℚ), 3]]).rango =
      (calculate_statistics [[(1 : ℚ), 3]]).maximo -
        (calculate_statistics [[(1 : ℚ), 3]]).minimo ∧
    (calculate_statistics [[(1 : ℚ), 3]]).minimo ≤
      (calculate_statistics [[(1 : ℚ), 3]]).media ∧
    (calculate_statistics [[(1 : ℚ), 3]]).media ≤
      (calculate_statistics [[(1 : ℚ), 3]]).maximo ∧
    (calculate_statistics [[(1 : ℚ), 3]]).pixelesTotales =
      ([[(1 : ℚ), 3]] : List (List ℚ)).join.length) :=
  ⟨by decide, claim8_statistics [[(1 : ℚ), 3]] (by decide)⟩

end MultiSpec
